import Mathlib

/-!
Verification development for the PLTX timeseries container
(`src/core/io/pltx_convertion.py`, `core/reader.py`, `routes.py`).

Shallow embedding conventions:
* `float64` timestamps and values are modelled as rationals (`ℚ`): every
  operation of the code moves them through `struct.pack`/`struct.unpack`
  and a lossless codec unchanged, so bit-identity is plain equality and
  all modelled values are finite.
* Byte buffers are modelled at record granularity: a packed buffer of
  `n` records has byte length `16 * n` (`RECORD_SIZE = 16`), and the
  codec layer is lossless, so a chunk frame stores its decompressed
  payload as a record list together with the header fields the code
  writes (`sid`, `n`, `raw_len`, `comp_len`, `min_ts`, `max_ts`).
* Python dicts keyed by `sid`/name are association lists with distinct
  keys; dict iteration order is insertion order, as in CPython.
* The asyncio writer is single-loop cooperative; its observable record
  semantics is a state machine driven by events (`record_point`,
  `record_batch`, periodic-flush `tick`).  Fallible operations
  (`KeyError` on an unknown integer sid) return `Except`.
-/

namespace Pltx

/-- A record `(timestamp, value)`, i.e. the unpacked form of `RECORD_FMT = "<dd"`. -/
abbrev Reco := ℚ × ℚ

/-- Per-signal metadata held in `_signals_by_id` and in the final header. -/
structure SigMeta where
  name : String
  unit : String
  description : String
  sourceTag : String
deriving DecidableEq, Repr

/-- Association-list lookup on the first component (Python dict `d[k]` / `d.get(k)`). -/
def assocFind {α β : Type} [DecidableEq α] (l : List (α × β)) (k : α) : Option β :=
  match l with
  | [] => none
  | p :: ps => if p.1 = k then some p.2 else assocFind ps k

/-- Python's `str.lower()` (character-wise lowercasing; the tags compared are
ASCII). -/
def strLower (s : String) : String := ⟨s.data.map Char.toLower⟩

/-- Compression tag selection, `_pick_compression`.  `name = (name or "zstd").lower()`:
the empty string is falsy in Python, so it falls back to the `"zstd"` default.
Availability of the optional `zstandard` / `lz4` libraries is a parameter. -/
def pick_compression (zstdAvail lz4Avail : Bool) (nameArg : Option String) : Nat :=
  let n := match nameArg with
    | none => "zstd"
    | some s => if s = "" then "zstd" else s
  let n := strLower n
  if n = "none" then 0          -- COMP_NONE
  else if n = "zstd" && zstdAvail then 3  -- COMP_ZSTD
  else if n = "lz4" && lz4Avail then 2    -- COMP_LZ4
  else 1                         -- COMP_ZLIB (deflate fallback)

/-- The codec choice described by the spec's words ("none" → NONE; "zstd" → ZSTD
if available else DEFLATE; "lz4" → LZ4 if available else DEFLATE; any other
string → DEFLATE; matching case-insensitive).  Used to compare the spec's
claim against `pick_compression`. -/
def specCodecChoice (zstdAvail lz4Avail : Bool) (s : String) : Nat :=
  if strLower s = "none" then 0
  else if strLower s = "zstd" then (if zstdAvail then 3 else 1)
  else if strLower s = "lz4" then (if lz4Avail then 2 else 1)
  else 1

/-! ### Writer state machine (`AsyncPltWriter`) -/

/-- Construction parameters that matter to record semantics. -/
structure WriterConfig where
  chunkRecords : Nat
deriving DecidableEq, Repr

/-- The writer's mutable state:
`_signals_by_name`, `_signals_by_id`, `_next_sid`, the per-signal buffers
(`_buf_ts`/`_buf_val` are mutated in lockstep, so they are one list of
pairs), and the chunks appended so far to the temp file, in write order. -/
structure WriterState where
  signalsByName : List (String × Nat)
  signalsById : List (Nat × SigMeta)
  nextSid : Nat
  buf : List (Nat × List Reco)
  tmp : List (Nat × List Reco)
deriving DecidableEq, Repr

/-- Fresh writer: empty registries, `_next_sid = 1`, empty temp file. -/
def initWriter : WriterState := ⟨[], [], 1, [], []⟩

/-- Embeds `add_signal_meta`: idempotent on name; otherwise registers a fresh sid with
empty buffers. -/
def add_signal_meta (s : WriterState) (name unit descr src : String) :
    Nat × WriterState :=
  match assocFind s.signalsByName name with
  | some sid => (sid, s)
  | none =>
    let sid := s.nextSid
    (sid, { s with
      nextSid := sid + 1
      signalsByName := s.signalsByName ++ [(name, sid)]
      signalsById := s.signalsById ++ [(sid, ⟨name, unit, descr, src⟩)]
      buf := s.buf ++ [(sid, [])] })

/-- A `name_or_id` argument: Python accepts an `int` (returned verbatim) or any
other value, stringified and registered. -/
inductive SigRef where
  | bySid (sid : Nat)
  | byName (name : String)
deriving DecidableEq, Repr

/-- Embeds `get_signal_id`: integers pass through unchanged (no registration);
names are registered implicitly with empty metadata. -/
def get_signal_id (s : WriterState) : SigRef → Nat × WriterState
  | .bySid n => (n, s)
  | .byName nm => add_signal_meta s nm "" "" ""

/-- Append records to the buffer entry of `sid` (both `_buf_ts[sid].append`
and `_buf_val[sid].append`). -/
def bufAppend (b : List (Nat × List Reco)) (sid : Nat) (rs : List Reco) :
    List (Nat × List Reco) :=
  b.map fun p => if p.1 = sid then (p.1, p.2 ++ rs) else p

/-- Clear the buffer entry of `sid` (`self._buf_ts[sid].clear()` etc.). -/
def bufClear (b : List (Nat × List Reco)) (sid : Nat) : List (Nat × List Reco) :=
  b.map fun p => if p.1 = sid then (p.1, []) else p

/-- Embeds `_flush_signal`: snapshot-and-clear the buffer, then `_append_chunk_to_tmp`
(which returns immediately on an empty snapshot).  A missing buffer key cannot
occur on the writer's own call sites. -/
def flush_signal (s : WriterState) (sid : Nat) : WriterState :=
  match assocFind s.buf sid with
  | none => s
  | some [] => s
  | some (r :: rs) =>
      { s with buf := bufClear s.buf sid, tmp := s.tmp ++ [(sid, r :: rs)] }

/-- Embeds `_flush_all`: flush every signal's buffer (iterating the buffer keys). -/
def flush_all (s : WriterState) : WriterState :=
  (s.buf.map Prod.fst).foldl flush_signal s

/-- Embeds `record_point`: resolve the sid, append one record, flush when the buffer
has reached `chunk_records`.  `self._buf_ts[sid]` raises `KeyError` when an
integer sid was never registered. -/
def record_point (cfg : WriterConfig) (s : WriterState) (arg : SigRef)
    (ts val : ℚ) : Except String WriterState :=
  let (sid, s1) := get_signal_id s arg
  match assocFind s1.buf sid with
  | none => .error "KeyError"
  | some rs =>
    let s2 := { s1 with buf := bufAppend s1.buf sid [(ts, val)] }
    if cfg.chunkRecords ≤ rs.length + 1 then .ok (flush_signal s2 sid)
    else .ok s2

/-- Embeds `record_batch`: `zip(timestamps, values)` pairs positionally, truncating to
the shorter iterable; one flush check after all appends. -/
def record_batch (cfg : WriterConfig) (s : WriterState) (arg : SigRef)
    (tss vs : List ℚ) : Except String WriterState :=
  let (sid, s1) := get_signal_id s arg
  match assocFind s1.buf sid with
  | none => .error "KeyError"
  | some rs =>
    let s2 := { s1 with buf := bufAppend s1.buf sid (tss.zip vs) }
    if cfg.chunkRecords ≤ rs.length + (tss.zip vs).length then
      .ok (flush_signal s2 sid)
    else .ok s2

/-- One observable writer event: a `record_point` call, a `record_batch` call,
or a periodic-flush tick of `_periodic_flush`. -/
inductive WEvent where
  | point (arg : SigRef) (ts val : ℚ)
  | batch (arg : SigRef) (tss vs : List ℚ)
  | tick
deriving DecidableEq, Repr

/-- One step of the writer state machine. -/
def step (cfg : WriterConfig) (s : WriterState) : WEvent → Except String WriterState
  | .point a t v => record_point cfg s a t v
  | .batch a ts vs => record_batch cfg s a ts vs
  | .tick => .ok (flush_all s)

/-- Run a whole writer session (a list of events). -/
def run (cfg : WriterConfig) (s : WriterState) : List WEvent → Except String WriterState
  | [] => .ok s
  | e :: es => (step cfg s e).bind fun s' => run cfg s' es

/-- Holds (`true`) iff a record event addresses its signal by name (the common
socket-feed path). -/
def eventNamesOnlyB : WEvent → Bool
  | .point (.bySid _) _ _ => false
  | .batch (.bySid _) _ _ => false
  | _ => true

/-- Holds (`true`) iff every record event addresses its signal by name. -/
def namesOnlyB (es : List WEvent) : Bool :=
  es.all eventNamesOnlyB

/-- The records one event submits for signal `name`. -/
def submittedOne (name : String) : WEvent → List Reco
  | .point (.byName n) t v => if n = name then [(t, v)] else []
  | .batch (.byName n) ts vs => if n = name then ts.zip vs else []
  | _ => []

/-- The records submitted for signal `name` by a list of events, in submission
order (`record_batch` contributes `zip(timestamps, values)`). -/
def submitted (name : String) : List WEvent → List Reco
  | [] => []
  | .point (.byName n) t v :: es =>
      (if n = name then [(t, v)] else []) ++ submitted name es
  | .batch (.byName n) ts vs :: es =>
      (if n = name then ts.zip vs else []) ++ submitted name es
  | _ :: es => submitted name es

/-! ### Chunk frames and the final file -/

/-- Minimum of the timestamps of a record list, as computed by the
`min_ts = inf; if t < min_ts: ...` loop of `_append_chunk_to_tmp`
(for a nonempty list the infinity seed is equivalent to seeding with
the head). -/
def tsMin : List Reco → ℚ
  | [] => 0
  | r :: rs => rs.foldl (fun m p => min m p.1) r.1

/-- Maximum of the timestamps, symmetric to `tsMin`. -/
def tsMax : List Reco → ℚ
  | [] => 0
  | r :: rs => rs.foldl (fun m p => max m p.1) r.1

/-- A chunk frame as written to the temp file and copied verbatim into the
final file: `CHNK` magic, header `(sid, n, raw_len, comp_len, min_ts, max_ts)`
and the (decompressed view of the) payload. -/
structure ChunkFrame where
  magic : String
  sid : Nat
  n : Nat
  rawLen : Nat
  compLen : Nat
  minTs : ℚ
  maxTs : ℚ
  payload : List Reco
deriving DecidableEq, Repr

/-- The frame `_append_chunk_to_tmp` builds from a nonempty snapshot:
`n` records, `raw_len = 16 * n`; the codec is lossless so the payload is
recoverable and `comp_len` is abstracted as the raw length. -/
def mkChunk (sid : Nat) (rs : List Reco) : ChunkFrame :=
  { magic := "CHNK", sid := sid, n := rs.length, rawLen := 16 * rs.length
    compLen := 16 * rs.length, minTs := tsMin rs, maxTs := tsMax rs
    payload := rs }

/-- An entry of the final index: `(sid, offset, min_ts, max_ts)`.  Offsets are
modelled as positions in the final file's chunk region. -/
structure IndexEntry where
  sid : Nat
  off : Nat
  minTs : ℚ
  maxTs : ℚ
deriving DecidableEq, Repr

/-- The sealed final file: header signal table, chunk region (addressed by
offset = position), and the index in chunk-write order. -/
structure PltFile where
  signals : List (Nat × SigMeta)
  chunks : List ChunkFrame
  index : List IndexEntry
deriving DecidableEq, Repr

/-- Embeds `_scan_tmp_for_index_entries` + `_build_final_from_tmp`: copy the temp
chunks in order, recording `(sid, offset, min_ts, max_ts)` per chunk. -/
def buildFinal (s : WriterState) : PltFile :=
  { signals := s.signalsById
    chunks := s.tmp.map fun p => mkChunk p.1 p.2
    index := s.tmp.enum.map fun ip =>
      ⟨ip.2.1, ip.1, tsMin ip.2.2, tsMax ip.2.2⟩ }

/-- The data path of `stop_and_save`: final flush of every buffer, then the
final file assembled from the temp chunks. -/
def stop_and_save_file (s : WriterState) : PltFile :=
  buildFinal (flush_all s)

/-! ### Reader (`PltReader`) -/

/-- The per-signal index list the reader builds with `setdefault(...).append`:
entries of this sid, in index order. -/
def indexFor (f : PltFile) (sid : Nat) : List IndexEntry :=
  f.index.filter fun e => e.sid = sid

/-- Seek to an offset of the chunk region. -/
def chunkAt (f : PltFile) (off : Nat) : Option ChunkFrame :=
  f.chunks.get? off

/-- Byte length of the decompressed payload (`len(raw)`). -/
def decompLen (c : ChunkFrame) : Nat := 16 * c.payload.length

/-- Unpack `n` records from the decompressed buffer; a short buffer makes
`struct.unpack` fail. -/
def takeRecords (c : ChunkFrame) : Except String (List Reco) :=
  if c.n ≤ c.payload.length then .ok (c.payload.take c.n)
  else .error "struct unpack: short buffer"

/-- Generator semantics: the list of chunks yielded before the first error,
and the error (if any) that then terminates the call. -/
abbrev IterOut := List (List ℚ × List ℚ) × Option String

/-- Embeds the `iter_chunks` body over a list of index entries: check the `CHNK` magic,
the header sid, the decompressed length against `raw_len`, then unpack and
yield `(ts_list, val_list)`. -/
def iterChunksFrom (f : PltFile) (sid : Nat) : List IndexEntry → IterOut
  | [] => ([], none)
  | e :: es =>
    match chunkAt f e.off with
    | none => ([], some "short read")
    | some c =>
      if c.magic ≠ "CHNK" then ([], some "Chunk magic mismatch")
      else if c.sid ≠ sid then ([], some "Index points to wrong signal")
      else if decompLen c ≠ c.rawLen then ([], some "Decompressed length mismatch")
      else
        match takeRecords c with
        | .error m => ([], some m)
        | .ok rs =>
          let rest := iterChunksFrom f sid es
          ((rs.map Prod.fst, rs.map Prod.snd) :: rest.1, rest.2)

/-- Embeds `iter_chunks(signal_id)`: an unknown sid yields the empty sequence. -/
def iter_chunks (f : PltFile) (sid : Nat) : IterOut :=
  iterChunksFrom f sid (indexFor f sid)

/-- Embeds the `iter_time_range` body: skip entries with `mx < t1 or mn > t2`; otherwise
check magic and sid, decompress (without a `raw_len` verification — the code
has none here), unpack `n` records, keep those with `t1 ≤ ts ≤ t2`, and yield
the chunk only if any survive. -/
def iterRangeFrom (f : PltFile) (sid : Nat) (t1 t2 : ℚ) : List IndexEntry → IterOut
  | [] => ([], none)
  | e :: es =>
    if e.maxTs < t1 ∨ e.minTs > t2 then iterRangeFrom f sid t1 t2 es
    else
      match chunkAt f e.off with
      | none => ([], some "short read")
      | some c =>
        if c.magic ≠ "CHNK" then ([], some "Chunk magic mismatch")
        else if c.sid ≠ sid then ([], some "Index points to wrong signal")
        else
          match takeRecords c with
          | .error m => ([], some m)
          | .ok rs =>
            let keep := rs.filter fun r => t1 ≤ r.1 ∧ r.1 ≤ t2
            let rest := iterRangeFrom f sid t1 t2 es
            if keep = [] then rest
            else ((keep.map Prod.fst, keep.map Prod.snd) :: rest.1, rest.2)

/-- Embeds `iter_time_range(signal_id, t1, t2)`. -/
def iter_time_range (f : PltFile) (sid : Nat) (t1 t2 : ℚ) : IterOut :=
  iterRangeFrom f sid t1 t2 (indexFor f sid)

/-- Embeds `read_signal_all`: extend over all yielded chunks; an iteration error
propagates to the caller. -/
def read_signal_all (f : PltFile) (sid : Nat) :
    Except String (List ℚ × List ℚ) :=
  match iter_chunks f sid with
  | (_, some e) => .error e
  | (outs, none) => .ok ((outs.map Prod.fst).flatten, (outs.map Prod.snd).flatten)

/-! ### Auxiliary observations on writer states -/

/-- Concatenation of the records of the chunks of `sid` in a chunk list,
in write order. -/
def tmpCat (l : List (Nat × List Reco)) (sid : Nat) : List Reco :=
  ((l.filter fun p => p.1 = sid).map Prod.snd).flatten

/-- Concatenation of the records of all temp chunks of `sid`, in write order. -/
def tmpFor (s : WriterState) (sid : Nat) : List Reco :=
  tmpCat s.tmp sid

/-- The current buffer contents of `sid` (empty if absent). -/
def bufFor (s : WriterState) (sid : Nat) : List Reco :=
  (assocFind s.buf sid).getD []

/-- Everything the writer holds for a signal name: flushed chunks then the
live buffer.  Empty for an unregistered name. -/
def contentOf (s : WriterState) (name : String) : List Reco :=
  match assocFind s.signalsByName name with
  | some sid => tmpFor s sid ++ bufFor s sid
  | none => []

/-- Structural well-formedness of a writer state (holds for `initWriter` and
is preserved by every event): distinct names, distinct sids, sids below
`_next_sid`, buffers keyed exactly by the registered sids (in order), temp
chunks nonempty with registered-range sids. -/
def wfb (s : WriterState) : Bool :=
  decide (s.signalsByName.map Prod.fst).Nodup &&
  decide (s.signalsByName.map Prod.snd).Nodup &&
  s.signalsByName.all (fun p => p.2 < s.nextSid) &&
  decide (s.buf.map Prod.fst = s.signalsByName.map Prod.snd) &&
  decide (s.signalsById.map Prod.fst = s.signalsByName.map Prod.snd) &&
  s.tmp.all (fun c => decide (c.1 < s.nextSid) && !c.2.isEmpty)

/-- A well-formed indexed chunk for `sid`: the offset resolves, the magic and
sid match, the decompressed length equals `raw_len`, and the header `n`
matches the payload. -/
def entryWFb (f : PltFile) (sid : Nat) (e : IndexEntry) : Bool :=
  match chunkAt f e.off with
  | none => false
  | some c =>
    c.magic = "CHNK" && c.sid = sid && decompLen c = c.rawLen &&
      c.n = c.payload.length

/-- Index-entry bounds cover the chunk's timestamps and the interval is
ordered (what the writer guarantees for the entries it emits). -/
def entryBoundsB (f : PltFile) (e : IndexEntry) : Bool :=
  match chunkAt f e.off with
  | none => false
  | some c =>
    decide (e.minTs ≤ e.maxTs) &&
      c.payload.all fun r => decide (e.minTs ≤ r.1) && decide (r.1 ≤ e.maxTs)

/-- A structurally valid PLTX file: every index entry points at a readable
chunk of its own sid. -/
def fileWFb (f : PltFile) : Bool :=
  f.index.all fun e => entryWFb f e.sid e

/-- The index entries `iter_time_range(sid, t1, t2)` actually reads (those not
pruned by the `mx < t1 or mn > t2` test). -/
def readEntries (f : PltFile) (sid : Nat) (t1 t2 : ℚ) : List IndexEntry :=
  (indexFor f sid).filter fun e => ¬(e.maxTs < t1 ∨ e.minTs > t2)

/-! ### Finalize and the filesystem (`stop_and_save` / `_build_final_from_tmp`)

`_build_final_from_tmp` writes the complete final image to `{final_path}.part`
and then promotes it with the atomic `os.replace`; on *any* exception it
sleeps one second and recurses.  The filesystem is modelled with the three
paths the writer touches.  A failing attempt may leave arbitrary bytes in
`.part` (modelled as `some none`) but never touches `final_path`, which is
mutated only by the atomic replace of a completely written image. -/

/-- Filesystem state: the final path, the `.part` scratch path (`some none` =
partial garbage, `some (some f)` = complete image), and the temp-chunks file. -/
structure FsState where
  finalFile : Option PltFile
  partFile : Option (Option PltFile)
  tmpFile : Option (List (Nat × List Reco))
deriving DecidableEq, Repr

/-- One failed write attempt on `.part`: scratch garbage, final untouched. -/
def failedAttempt (fs : FsState) : FsState :=
  { fs with partFile := some none }

/-- A successful attempt: the full image lands in `.part`, then `os.replace`
atomically installs it at the final path. -/
def successAttempt (target : PltFile) (fs : FsState) : FsState :=
  { fs with partFile := none, finalFile := some target }

/-- Embeds `stop_and_save` against the filesystem: drain the buffers into the temp
file, run `failCount` failed `.part` attempts followed by the succeeding one,
then delete the temp file. -/
def stop_and_save_fs (s : WriterState) (failCount : Nat) (fs : FsState) : FsState :=
  let sF := flush_all s
  let target := buildFinal sF
  let fs1 := { fs with tmpFile := some sF.tmp }
  let fs2 := failedAttempt^[failCount] fs1
  let fs3 := successAttempt target fs2
  { fs3 with tmpFile := none }

/-! ### Signal registry (`ReaderManager`, `core/reader.py`) -/

/-- Registry state: `signal_map` as an insertion-ordered dict from assigned
public name to the original name (the reader/path parts of the entry do not
matter to the naming policy). -/
structure RMState where
  signalMap : List (String × String)
deriving DecidableEq, Repr

/-- Embeds `list(self.signal_map.keys())`. -/
def rmKeys (st : RMState) : List String := st.signalMap.map Prod.fst

/-- Embeds `get_signal_name`: count occurrences of `signal` among the *assigned*
keys (a dict key occurs at most once) and append `[count+1]` when present. -/
def get_signal_name (st : RMState) (signal : String) : String :=
  let originKeys := rmKeys st
  if signal ∈ originKeys then
    signal ++ "[" ++ toString (originKeys.count signal + 1) ++ "]"
  else signal

/-- Dict assignment `self.signal_map[k] = v`: overwrite in place or append. -/
def dictInsert (m : List (String × String)) (k v : String) :
    List (String × String) :=
  if k ∈ m.map Prod.fst then
    m.map fun kv => if kv.1 = k then (k, v) else kv
  else m ++ [(k, v)]

/-- The registration loop of `read_file` over the header's `signal_names`:
assign a public name per signal, store it, and collect the assigned list. -/
def registerSignals (st : RMState) (names : List String) : RMState × List String :=
  match names with
  | [] => (st, [])
  | n :: ns =>
    let a := get_signal_name st n
    let st' : RMState := ⟨dictInsert st.signalMap a n⟩
    let (stF, rest) := registerSignals st' ns
    (stF, a :: rest)

/-! ### WebSocket stream (`routes.websocket_endpoint` / `agent.stream`) -/

/-- A message sent over the stream socket. -/
inductive StreamMsg where
  | data (timestamp value : ℚ) (seq : Nat)
  | done (seq : Nat)
  | err (msg : String)
deriving DecidableEq, Repr

/-- The inner loop: one data message per `zip(ts_chunk, val_chunk)` record,
incrementing `seq`. -/
def recMsgs (seq : Nat) : List Reco → List StreamMsg × Nat
  | [] => ([], seq)
  | (t, v) :: rs =>
    let (ms, s') := recMsgs (seq + 1) rs
    (.data t v seq :: ms, s')

/-- The outer loop over yielded chunks, threading `seq`. -/
def chunksMsgs (seq : Nat) : List (List ℚ × List ℚ) → List StreamMsg × Nat
  | [] => ([], seq)
  | (ts, vs) :: rest =>
    let (ms, s1) := recMsgs seq (ts.zip vs)
    let (ms2, s2) := chunksMsgs s1 rest
    (ms ++ ms2, s2)

/-- The whole endpoint: `none` = the public name is not in `signal_map`
(lookup error); otherwise the chunks yielded by the underlying read and the
error, if any, that ended it.  Success appends the `end_flag` terminator;
any error path sends the single error message. -/
def websocket_stream (entry : Option (List (List ℚ × List ℚ) × Option String)) :
    List StreamMsg :=
  match entry with
  | none => [.err "Signal not registered"]
  | some (chunks, errOpt) =>
    let (ms, seq) := chunksMsgs 0 chunks
    match errOpt with
    | some e => ms ++ [.err e]
    | none => ms ++ [.done seq]

/-- All records carried by a chunk sequence, flattened in order. -/
def flatRecs (chunks : List (List ℚ × List ℚ)) : List Reco :=
  (chunks.map fun c => c.1.zip c.2).flatten

/-! ## Helper lemmas: association lists and buffers -/

section AssocLemmas

variable {α β : Type} [DecidableEq α]

theorem assocFind_nil (k : α) : assocFind ([] : List (α × β)) k = none := rfl

theorem assocFind_cons (p : α × β) (ps : List (α × β)) (k : α) :
    assocFind (p :: ps) k = if p.1 = k then some p.2 else assocFind ps k := rfl

theorem assocFind_append_some {l₁ l₂ : List (α × β)} {k : α} {v : β}
    (h : assocFind l₁ k = some v) : assocFind (l₁ ++ l₂) k = some v := by
  induction l₁ with
  | nil => simp [assocFind_nil] at h
  | cons p ps ih =>
    rw [List.cons_append, assocFind_cons] at *
    by_cases hp : p.1 = k
    · simpa [hp] using h
    · rw [if_neg hp] at h ⊢; exact ih h

theorem assocFind_append_none {l₁ l₂ : List (α × β)} {k : α}
    (h : assocFind l₁ k = none) : assocFind (l₁ ++ l₂) k = assocFind l₂ k := by
  induction l₁ with
  | nil => simp
  | cons p ps ih =>
    rw [assocFind_cons] at h
    by_cases hp : p.1 = k
    · simp [hp] at h
    · rw [if_neg hp] at h
      rw [List.cons_append, assocFind_cons, if_neg hp]
      exact ih h

theorem assocFind_eq_none_iff {l : List (α × β)} {k : α} :
    assocFind l k = none ↔ k ∉ l.map Prod.fst := by
  induction l with
  | nil => simp [assocFind_nil]
  | cons p ps ih =>
    rw [assocFind_cons]
    by_cases hp : p.1 = k
    · simp [hp]
    · simp [hp, ih, Ne.symm hp]

theorem assocFind_mem {l : List (α × β)} {k : α} {v : β}
    (h : assocFind l k = some v) : (k, v) ∈ l := by
  induction l with
  | nil => simp [assocFind_nil] at h
  | cons p ps ih =>
    rw [assocFind_cons] at h
    by_cases hp : p.1 = k
    · rw [if_pos hp] at h
      injection h with h
      have hpv : p = (k, v) := by
        obtain ⟨p1, p2⟩ := p
        simp only at hp h
        rw [hp, h]
      exact List.mem_cons.mpr (Or.inl hpv.symm)
    · rw [if_neg hp] at h
      exact List.mem_cons.mpr (Or.inr (ih h))

theorem assocFind_isSome_of_mem {l : List (α × β)} {k : α}
    (h : k ∈ l.map Prod.fst) : ∃ v, assocFind l k = some v := by
  cases hf : assocFind l k with
  | none => exact absurd h (assocFind_eq_none_iff.mp hf)
  | some v => exact ⟨v, rfl⟩

end AssocLemmas

theorem bufAppend_keys (b : List (Nat × List Reco)) (sid : Nat) (rs : List Reco) :
    (bufAppend b sid rs).map Prod.fst = b.map Prod.fst := by
  induction b with
  | nil => rfl
  | cons p ps ih =>
    by_cases hp : p.1 = sid <;> simp [bufAppend, hp] at ih ⊢ <;> exact ih

theorem bufClear_keys (b : List (Nat × List Reco)) (sid : Nat) :
    (bufClear b sid).map Prod.fst = b.map Prod.fst := by
  induction b with
  | nil => rfl
  | cons p ps ih =>
    by_cases hp : p.1 = sid <;> simp [bufClear, hp] at ih ⊢ <;> exact ih

theorem assocFind_bufAppend_self (b : List (Nat × List Reco)) (sid : Nat)
    (rs : List Reco) :
    assocFind (bufAppend b sid rs) sid = (assocFind b sid).map (· ++ rs) := by
  induction b with
  | nil => rfl
  | cons p ps ih =>
    by_cases hp : p.1 = sid
    · simp [bufAppend, hp, assocFind_cons]
    · simp only [bufAppend, List.map_cons, if_neg hp, assocFind_cons] at ih ⊢
      exact ih

theorem assocFind_bufAppend_ne (b : List (Nat × List Reco)) (sid : Nat)
    (rs : List Reco) {sid' : Nat} (h : sid' ≠ sid) :
    assocFind (bufAppend b sid rs) sid' = assocFind b sid' := by
  induction b with
  | nil => rfl
  | cons p ps ih =>
    by_cases hp : p.1 = sid
    · simp only [bufAppend, List.map_cons, if_pos hp, assocFind_cons] at ih ⊢
      rw [if_neg (by simpa [hp] using (Ne.symm h)), if_neg (hp ▸ Ne.symm h), ih]
    · simp only [bufAppend, List.map_cons, if_neg hp, assocFind_cons] at ih ⊢
      by_cases hp' : p.1 = sid' <;> simp [hp', ih]

theorem assocFind_bufClear_self (b : List (Nat × List Reco)) (sid : Nat) :
    assocFind (bufClear b sid) sid = (assocFind b sid).map (fun _ => ([] : List Reco)) := by
  induction b with
  | nil => rfl
  | cons p ps ih =>
    by_cases hp : p.1 = sid
    · simp [bufClear, hp, assocFind_cons]
    · simp only [bufClear, List.map_cons, if_neg hp, assocFind_cons] at ih ⊢
      exact ih

theorem assocFind_bufClear_ne (b : List (Nat × List Reco)) (sid : Nat)
    {sid' : Nat} (h : sid' ≠ sid) :
    assocFind (bufClear b sid) sid' = assocFind b sid' := by
  induction b with
  | nil => rfl
  | cons p ps ih =>
    by_cases hp : p.1 = sid
    · simp only [bufClear, List.map_cons, if_pos hp, assocFind_cons] at ih ⊢
      rw [if_neg (by simpa [hp] using (Ne.symm h)), if_neg (hp ▸ Ne.symm h), ih]
    · simp only [bufClear, List.map_cons, if_neg hp, assocFind_cons] at ih ⊢
      by_cases hp' : p.1 = sid' <;> simp [hp', ih]

theorem tmpCat_append (l₁ l₂ : List (Nat × List Reco)) (sid : Nat) :
    tmpCat (l₁ ++ l₂) sid = tmpCat l₁ sid ++ tmpCat l₂ sid := by
  simp [tmpCat, List.filter_append, List.flatten_append]

theorem tmpCat_single_self (sid : Nat) (rs : List Reco) :
    tmpCat [(sid, rs)] sid = rs := by
  simp [tmpCat]

theorem tmpCat_single_ne {sid sid' : Nat} (h : sid' ≠ sid) (rs : List Reco) :
    tmpCat [(sid, rs)] sid' = [] := by
  simp [tmpCat, Ne.symm h]

theorem tmpCat_eq_nil {l : List (Nat × List Reco)} {sid : Nat}
    (h : ∀ p ∈ l, p.1 ≠ sid) : tmpCat l sid = [] := by
  have : l.filter (fun p => p.1 = sid) = [] :=
    List.filter_eq_nil_iff.mpr (by intro p hp; simpa using h p hp)
  simp [tmpCat, this]

/-! ## Writer invariant -/

/-- Propositional form of `wfb`. -/
structure WF (s : WriterState) : Prop where
  namesND : (s.signalsByName.map Prod.fst).Nodup
  sidsND : (s.signalsByName.map Prod.snd).Nodup
  sidLt : ∀ p ∈ s.signalsByName, p.2 < s.nextSid
  bufKeys : s.buf.map Prod.fst = s.signalsByName.map Prod.snd
  byIdKeys : s.signalsById.map Prod.fst = s.signalsByName.map Prod.snd
  tmpOk : ∀ c ∈ s.tmp, c.1 < s.nextSid ∧ c.2 ≠ []

theorem wfb_iff {s : WriterState} : wfb s = true ↔ WF s := by
  constructor
  · intro h
    simp only [wfb, Bool.and_eq_true, List.all_eq_true, decide_eq_true_eq,
      Bool.not_eq_true', List.isEmpty_eq_false] at h
    exact ⟨h.1.1.1.1.1, h.1.1.1.1.2, h.1.1.1.2, h.1.1.2, h.1.2,
      fun c hc => ⟨(h.2 c hc).1, (h.2 c hc).2⟩⟩
  · intro h
    simp only [wfb, Bool.and_eq_true, List.all_eq_true, decide_eq_true_eq,
      Bool.not_eq_true', List.isEmpty_eq_false]
    exact ⟨⟨⟨⟨⟨h.namesND, h.sidsND⟩, h.sidLt⟩, h.bufKeys⟩, h.byIdKeys⟩,
      fun c hc => ⟨(h.tmpOk c hc).1, (h.tmpOk c hc).2⟩⟩

/-- A sid registered for some name is a buffer key. -/
theorem sid_mem_bufKeys {s : WriterState} (hwf : WF s) {name : String} {sid : Nat}
    (h : assocFind s.signalsByName name = some sid) : sid ∈ s.buf.map Prod.fst := by
  rw [hwf.bufKeys]
  exact List.mem_map.mpr ⟨(name, sid), assocFind_mem h, rfl⟩

/-- A buffer key is below `_next_sid`. -/
theorem bufKey_lt {s : WriterState} (hwf : WF s) {sid : Nat}
    (h : sid ∈ s.buf.map Prod.fst) : sid < s.nextSid := by
  rw [hwf.bufKeys] at h
  obtain ⟨p, hp, rfl⟩ := List.mem_map.mp h
  exact hwf.sidLt p hp

/-- Distinct registered names have distinct sids. -/
theorem sid_ne_of_name_ne {s : WriterState} (hwf : WF s) {n₁ n₂ : String}
    {sid₁ sid₂ : Nat} (hne : n₁ ≠ n₂)
    (h₁ : assocFind s.signalsByName n₁ = some sid₁)
    (h₂ : assocFind s.signalsByName n₂ = some sid₂) : sid₁ ≠ sid₂ := by
  intro heq
  subst heq
  have m₁ := assocFind_mem h₁
  have m₂ := assocFind_mem h₂
  have : (n₁, sid₁) ≠ (n₂, sid₁) := by simp [hne]
  exact this (by
    have := List.inj_on_of_nodup_map hwf.sidsND
    exact Prod.ext (by simpa using congrArg Prod.fst (this m₁ m₂ rfl)) rfl)

/-! ## Flush lemmas -/

/-- Behaviour of `flush_signal` when the buffer key is missing: no-op. -/
theorem flush_signal_of_none {s : WriterState} {sid : Nat}
    (hf : assocFind s.buf sid = none) : flush_signal s sid = s := by
  unfold flush_signal; rw [hf]

/-- Behaviour of `flush_signal` on an empty buffer: no-op. -/
theorem flush_signal_of_nil {s : WriterState} {sid : Nat}
    (hf : assocFind s.buf sid = some []) : flush_signal s sid = s := by
  unfold flush_signal; rw [hf]

/-- Behaviour of `flush_signal` on a nonempty buffer: clear it and append the chunk. -/
theorem flush_signal_of_cons {s : WriterState} {sid : Nat} {r : Reco}
    {rs : List Reco} (hf : assocFind s.buf sid = some (r :: rs)) :
    flush_signal s sid =
      { s with buf := bufClear s.buf sid, tmp := s.tmp ++ [(sid, r :: rs)] } := by
  unfold flush_signal; rw [hf]

/-- The function `flush_signal` does not change the registries. -/
theorem flush_signal_regs (s : WriterState) (sid : Nat) :
    (flush_signal s sid).signalsByName = s.signalsByName ∧
    (flush_signal s sid).signalsById = s.signalsById ∧
    (flush_signal s sid).nextSid = s.nextSid := by
  cases h : assocFind s.buf sid with
  | none => rw [flush_signal_of_none h]; exact ⟨rfl, rfl, rfl⟩
  | some rs => cases rs with
    | nil => rw [flush_signal_of_nil h]; exact ⟨rfl, rfl, rfl⟩
    | cons r rs => rw [flush_signal_of_cons h]; exact ⟨rfl, rfl, rfl⟩

/-- The function `flush_signal` keeps the buffer key list. -/
theorem flush_signal_bufKeys (s : WriterState) (sid : Nat) :
    (flush_signal s sid).buf.map Prod.fst = s.buf.map Prod.fst := by
  cases h : assocFind s.buf sid with
  | none => rw [flush_signal_of_none h]
  | some rs => cases rs with
    | nil => rw [flush_signal_of_nil h]
    | cons r rs => rw [flush_signal_of_cons h]; exact bufClear_keys _ _

/-- After `flush_signal s sid`, the buffer of `sid` is empty. -/
theorem flush_signal_bufFor_self (s : WriterState) (sid : Nat) :
    bufFor (flush_signal s sid) sid = [] := by
  cases h : assocFind s.buf sid with
  | none => rw [flush_signal_of_none h]; simp [bufFor, h]
  | some rs => cases rs with
    | nil => rw [flush_signal_of_nil h]; simp [bufFor, h]
    | cons r rs =>
      rw [flush_signal_of_cons h]
      simp [bufFor, assocFind_bufClear_self, h]

/-- A call `flush_signal s sid` does not touch the buffer of another sid. -/
theorem flush_signal_bufFor_ne (s : WriterState) (sid : Nat) {sid' : Nat}
    (h : sid' ≠ sid) : bufFor (flush_signal s sid) sid' = bufFor s sid' := by
  cases hf : assocFind s.buf sid with
  | none => rw [flush_signal_of_none hf]
  | some rs => cases rs with
    | nil => rw [flush_signal_of_nil hf]
    | cons r rs =>
      rw [flush_signal_of_cons hf]
      simp [bufFor, assocFind_bufClear_ne _ _ h]

/-- The function `flush_signal` preserves the per-signal content (chunks ++ buffer). -/
theorem flush_signal_content (s : WriterState) (sid sid' : Nat) :
    tmpFor (flush_signal s sid) sid' ++ bufFor (flush_signal s sid) sid' =
      tmpFor s sid' ++ bufFor s sid' := by
  cases hf : assocFind s.buf sid with
  | none => rw [flush_signal_of_none hf]
  | some rs =>
    cases rs with
    | nil => rw [flush_signal_of_nil hf]
    | cons r rs =>
      rw [flush_signal_of_cons hf]
      by_cases h : sid' = sid
      · subst h
        show tmpCat (s.tmp ++ [(sid', r :: rs)]) sid' ++
          (assocFind (bufClear s.buf sid') sid').getD [] = _
        rw [tmpCat_append, tmpCat_single_self, assocFind_bufClear_self, hf]
        simp [tmpFor, tmpCat, bufFor, hf]
      · show tmpCat (s.tmp ++ [(sid, r :: rs)]) sid' ++
          (assocFind (bufClear s.buf sid) sid').getD [] = _
        rw [tmpCat_append, tmpCat_single_ne h, assocFind_bufClear_ne _ _ h]
        simp [tmpFor, bufFor, tmpCat]

/-- The function `flush_signal` preserves the writer invariant. -/
theorem flush_signal_wf {s : WriterState} (hwf : WF s) (sid : Nat) :
    WF (flush_signal s sid) := by
  cases hf : assocFind s.buf sid with
  | none => rw [flush_signal_of_none hf]; exact hwf
  | some rs =>
    cases rs with
    | nil => rw [flush_signal_of_nil hf]; exact hwf
    | cons r rs =>
      rw [flush_signal_of_cons hf]
      refine ⟨hwf.namesND, hwf.sidsND, hwf.sidLt, ?_, hwf.byIdKeys, ?_⟩
      · show (bufClear s.buf sid).map Prod.fst = _
        rw [bufClear_keys]
        exact hwf.bufKeys
      · intro c hc
        rcases List.mem_append.mp hc with hc | hc
        · exact hwf.tmpOk c hc
        · have hceq : c = (sid, r :: rs) := by simpa using hc
          subst hceq
          refine ⟨?_, by simp⟩
          have hmem : sid ∈ s.buf.map Prod.fst :=
            List.mem_map.mpr ⟨(sid, r :: rs), assocFind_mem hf, rfl⟩
          exact bufKey_lt hwf hmem

/-! ## `flush_all` (fold of `flush_signal` over the buffer keys) -/

theorem foldl_flush_regs (L : List Nat) (s : WriterState) :
    (L.foldl flush_signal s).signalsByName = s.signalsByName ∧
    (L.foldl flush_signal s).signalsById = s.signalsById ∧
    (L.foldl flush_signal s).nextSid = s.nextSid := by
  induction L generalizing s with
  | nil => exact ⟨rfl, rfl, rfl⟩
  | cons t L ih =>
    rw [List.foldl_cons]
    obtain ⟨a, b, c⟩ := ih (flush_signal s t)
    obtain ⟨a', b', c'⟩ := flush_signal_regs s t
    exact ⟨a.trans a', b.trans b', c.trans c'⟩

theorem foldl_flush_bufKeys (L : List Nat) (s : WriterState) :
    (L.foldl flush_signal s).buf.map Prod.fst = s.buf.map Prod.fst := by
  induction L generalizing s with
  | nil => rfl
  | cons t L ih =>
    rw [List.foldl_cons]
    exact (ih (flush_signal s t)).trans (flush_signal_bufKeys s t)

theorem foldl_flush_content (L : List Nat) (s : WriterState) (sid : Nat) :
    tmpFor (L.foldl flush_signal s) sid ++ bufFor (L.foldl flush_signal s) sid =
      tmpFor s sid ++ bufFor s sid := by
  induction L generalizing s with
  | nil => rfl
  | cons t L ih =>
    rw [List.foldl_cons]
    exact (ih (flush_signal s t)).trans (flush_signal_content s t sid)

theorem foldl_flush_wf {s : WriterState} (hwf : WF s) (L : List Nat) :
    WF (L.foldl flush_signal s) := by
  induction L generalizing s with
  | nil => exact hwf
  | cons t L ih =>
    rw [List.foldl_cons]
    exact ih (flush_signal_wf hwf t)

theorem foldl_flush_bufFor_not_mem (L : List Nat) (s : WriterState) {sid : Nat}
    (h : sid ∉ L) : bufFor (L.foldl flush_signal s) sid = bufFor s sid := by
  induction L generalizing s with
  | nil => rfl
  | cons t L ih =>
    rw [List.foldl_cons]
    have hne : sid ≠ t := fun heq => h (heq ▸ List.mem_cons_self t L)
    have hL : sid ∉ L := fun hm => h (List.mem_cons.mpr (Or.inr hm))
    exact (ih (flush_signal s t) hL).trans (flush_signal_bufFor_ne s t hne)

theorem foldl_flush_bufFor_mem (L : List Nat) (s : WriterState) {sid : Nat}
    (h : sid ∈ L) : bufFor (L.foldl flush_signal s) sid = [] := by
  induction L generalizing s with
  | nil => simp at h
  | cons t L ih =>
    rw [List.foldl_cons]
    by_cases hm : sid ∈ L
    · exact ih (flush_signal s t) hm
    · have : sid = t := by
        rcases List.mem_cons.mp h with h | h
        · exact h
        · exact absurd h hm
      subst this
      rw [foldl_flush_bufFor_not_mem L _ hm]
      exact flush_signal_bufFor_self s sid

/-- After `flush_all`, every buffer is empty. -/
theorem flush_all_bufFor (s : WriterState) (sid : Nat) :
    bufFor (flush_all s) sid = [] := by
  unfold flush_all
  by_cases h : sid ∈ s.buf.map Prod.fst
  · exact foldl_flush_bufFor_mem _ s h
  · rw [foldl_flush_bufFor_not_mem _ s h]
    simp [bufFor, assocFind_eq_none_iff.mpr h]

theorem flush_all_regs (s : WriterState) :
    (flush_all s).signalsByName = s.signalsByName ∧
    (flush_all s).signalsById = s.signalsById ∧
    (flush_all s).nextSid = s.nextSid :=
  foldl_flush_regs _ s

theorem flush_all_wf {s : WriterState} (hwf : WF s) : WF (flush_all s) :=
  foldl_flush_wf hwf _

/-- The function `flush_all` moves exactly the buffered records of each signal to the end
of its temp-chunk sequence. -/
theorem flush_all_tmpFor (s : WriterState) (sid : Nat) :
    tmpFor (flush_all s) sid = tmpFor s sid ++ bufFor s sid := by
  have h := foldl_flush_content (s.buf.map Prod.fst) s sid
  have hb := flush_all_bufFor s sid
  unfold flush_all at hb ⊢
  rw [hb] at h
  simpa using h

/-- The observation `contentOf` is invariant under `flush_signal`. -/
theorem flush_signal_contentOf (s : WriterState) (sid : Nat) (nm : String) :
    contentOf (flush_signal s sid) nm = contentOf s nm := by
  unfold contentOf
  rw [(flush_signal_regs s sid).1]
  cases assocFind s.signalsByName nm with
  | none => rfl
  | some sid' => exact flush_signal_content s sid sid'

/-- The observation `contentOf` is invariant under `flush_all`. -/
theorem flush_all_contentOf (s : WriterState) (nm : String) :
    contentOf (flush_all s) nm = contentOf s nm := by
  unfold contentOf
  rw [(flush_all_regs s).1]
  cases assocFind s.signalsByName nm with
  | none => rfl
  | some sid' => exact foldl_flush_content _ s sid'

/-! ## Recording -/

/-- Common body of `record_point` and `record_batch`: resolve the sid, append
`new` to the buffer, flush when the buffer has reached `chunk_records`. -/
def recordCore (cfg : WriterConfig) (s : WriterState) (arg : SigRef)
    (new : List Reco) : Except String WriterState :=
  let (sid, s1) := get_signal_id s arg
  match assocFind s1.buf sid with
  | none => .error "KeyError"
  | some rs =>
    let s2 := { s1 with buf := bufAppend s1.buf sid new }
    if cfg.chunkRecords ≤ rs.length + new.length then .ok (flush_signal s2 sid)
    else .ok s2

theorem record_point_eq (cfg : WriterConfig) (s : WriterState) (a : SigRef)
    (ts val : ℚ) : record_point cfg s a ts val = recordCore cfg s a [(ts, val)] := rfl

theorem record_batch_eq (cfg : WriterConfig) (s : WriterState) (a : SigRef)
    (tss vs : List ℚ) : record_batch cfg s a tss vs = recordCore cfg s a (tss.zip vs) := rfl

theorem add_signal_meta_of_found {s : WriterState} {name : String} {sid : Nat}
    (h : assocFind s.signalsByName name = some sid) (u d src : String) :
    add_signal_meta s name u d src = (sid, s) := by
  unfold add_signal_meta; rw [h]

theorem add_signal_meta_of_fresh {s : WriterState} {name : String}
    (h : assocFind s.signalsByName name = none) (u d src : String) :
    add_signal_meta s name u d src =
      (s.nextSid, { s with
        nextSid := s.nextSid + 1
        signalsByName := s.signalsByName ++ [(name, s.nextSid)]
        signalsById := s.signalsById ++ [(s.nextSid, ⟨name, u, d, src⟩)]
        buf := s.buf ++ [(s.nextSid, [])] }) := by
  unfold add_signal_meta; rw [h]

/-- A registered sid is below `_next_sid`, via the name map. -/
theorem found_sid_lt {s : WriterState} (hwf : WF s) {name : String} {sid : Nat}
    (h : assocFind s.signalsByName name = some sid) : sid < s.nextSid :=
  hwf.sidLt _ (assocFind_mem h)

/-- The fresh sid is not yet a name-map value. -/
theorem nextSid_not_mem_sids {s : WriterState} (hwf : WF s) :
    s.nextSid ∉ s.signalsByName.map Prod.snd := by
  intro h
  obtain ⟨p, hp, hps⟩ := List.mem_map.mp h
  exact absurd (hps ▸ hwf.sidLt p hp) (lt_irrefl _)

/-- Implicit fresh registration preserves the invariant. -/
theorem add_fresh_wf {s : WriterState} (hwf : WF s) {name : String}
    (h : assocFind s.signalsByName name = none) (u d src : String) :
    WF ((add_signal_meta s name u d src).2) := by
  rw [add_signal_meta_of_fresh h]
  constructor
  · simp only [List.map_append, List.map_cons, List.map_nil]
    rw [List.nodup_append]
    refine ⟨hwf.namesND, List.nodup_singleton _, ?_⟩
    intro x hx hx'
    have : x = name := by simpa using hx'
    exact (assocFind_eq_none_iff.mp h) (this ▸ hx)
  · simp only [List.map_append, List.map_cons, List.map_nil]
    rw [List.nodup_append]
    refine ⟨hwf.sidsND, List.nodup_singleton _, ?_⟩
    intro x hx hx'
    have : x = s.nextSid := by simpa using hx'
    exact nextSid_not_mem_sids hwf (this ▸ hx)
  · intro p hp
    rcases List.mem_append.mp hp with hp | hp
    · exact Nat.lt_succ_of_lt (hwf.sidLt p hp)
    · have : p = (name, s.nextSid) := by simpa using hp
      subst this
      exact Nat.lt_succ_self _
  · simp only [List.map_append, List.map_cons, List.map_nil]
    rw [hwf.bufKeys]
  · simp only [List.map_append, List.map_cons, List.map_nil]
    rw [hwf.byIdKeys]
  · intro c hc
    exact ⟨Nat.lt_succ_of_lt (hwf.tmpOk c hc).1, (hwf.tmpOk c hc).2⟩

theorem contentOf_eq_of_find {s : WriterState} {nm : String} {sid : Nat}
    (h : assocFind s.signalsByName nm = some sid) :
    contentOf s nm = tmpFor s sid ++ bufFor s sid := by
  unfold contentOf; rw [h]

theorem contentOf_eq_of_none {s : WriterState} {nm : String}
    (h : assocFind s.signalsByName nm = none) : contentOf s nm = [] := by
  unfold contentOf; rw [h]

/-- The state after recording `new` to a freshly registered `name` (before a
possible flush): registries extended with sid `_next_sid` and empty metadata,
the new buffer holding `new`. -/
def freshRecordState (s : WriterState) (name : String) (new : List Reco) :
    WriterState :=
  { signalsByName := s.signalsByName ++ [(name, s.nextSid)],
    signalsById := s.signalsById ++ [(s.nextSid, ⟨name, "", "", ""⟩)],
    nextSid := s.nextSid + 1,
    buf := bufAppend (s.buf ++ [(s.nextSid, [])]) s.nextSid new,
    tmp := s.tmp }

/-- Recording by name always succeeds: the result is well-formed, the named
signal's content grows by exactly `new`, every other signal is untouched, and
a fresh name is registered with empty metadata under sid `_next_sid`. -/
theorem recordCore_ok {cfg : WriterConfig} {s : WriterState} (hwf : WF s)
    (name : String) (new : List Reco) :
    ∃ s', recordCore cfg s (.byName name) new = .ok s' ∧ WF s' ∧
      (∀ nm, contentOf s' nm = contentOf s nm ++ (if name = nm then new else [])) ∧
      (assocFind s.signalsByName name = none →
        assocFind s'.signalsByName name = some s.nextSid ∧
        assocFind s'.signalsById s.nextSid = some ⟨name, "", "", ""⟩) := by
  cases hreg : assocFind s.signalsByName name with
  | some sid =>
    have hget : get_signal_id s (.byName name) = (sid, s) := by
      show add_signal_meta s name "" "" "" = (sid, s)
      rw [add_signal_meta_of_found hreg]
    obtain ⟨rs, hbuf⟩ := assocFind_isSome_of_mem (sid_mem_bufKeys hwf hreg)
    have hwf2 : WF { s with buf := bufAppend s.buf sid new } := by
      refine ⟨hwf.namesND, hwf.sidsND, hwf.sidLt, ?_, hwf.byIdKeys, hwf.tmpOk⟩
      show (bufAppend s.buf sid new).map Prod.fst = _
      rw [bufAppend_keys]; exact hwf.bufKeys
    have hcontent2 : ∀ nm, contentOf { s with buf := bufAppend s.buf sid new } nm =
        contentOf s nm ++ (if name = nm then new else []) := by
      intro nm
      by_cases hnm : name = nm
      · subst hnm
        rw [contentOf_eq_of_find (s := { s with buf := bufAppend s.buf sid new }) hreg,
          contentOf_eq_of_find hreg, if_pos rfl]
        have hb : bufFor { s with buf := bufAppend s.buf sid new } sid =
            bufFor s sid ++ new := by
          show (assocFind (bufAppend s.buf sid new) sid).getD [] =
            (assocFind s.buf sid).getD [] ++ new
          rw [assocFind_bufAppend_self, hbuf]; rfl
        rw [hb, ← List.append_assoc]
        rfl
      · rw [if_neg hnm]
        cases hnm2 : assocFind s.signalsByName nm with
        | none =>
          rw [contentOf_eq_of_none (s := { s with buf := bufAppend s.buf sid new }) hnm2,
            contentOf_eq_of_none hnm2, List.append_nil]
        | some sid2 =>
          have hne : sid2 ≠ sid :=
            sid_ne_of_name_ne hwf (fun h => hnm h.symm) hnm2 hreg
          rw [contentOf_eq_of_find (s := { s with buf := bufAppend s.buf sid new }) hnm2,
            contentOf_eq_of_find hnm2, List.append_nil]
          have hb : bufFor { s with buf := bufAppend s.buf sid new } sid2 =
              bufFor s sid2 := by
            show (assocFind (bufAppend s.buf sid new) sid2).getD [] = _
            rw [assocFind_bufAppend_ne _ _ _ hne]
            rfl
          rw [hb]
          rfl
    by_cases hflush : cfg.chunkRecords ≤ rs.length + new.length
    · refine ⟨flush_signal { s with buf := bufAppend s.buf sid new } sid, ?_, ?_, ?_, ?_⟩
      · simp only [recordCore, hget, hbuf, if_pos hflush]
      · exact flush_signal_wf hwf2 sid
      · intro nm
        rw [flush_signal_contentOf]
        exact hcontent2 nm
      · intro h
        exact absurd h (Option.some_ne_none sid)
    · refine ⟨{ s with buf := bufAppend s.buf sid new }, ?_, hwf2, hcontent2, ?_⟩
      · simp only [recordCore, hget, hbuf, if_neg hflush]
      · intro h
        exact absurd h (Option.some_ne_none sid)
  | none =>
    have hget : get_signal_id s (.byName name) =
        (s.nextSid, { s with
          nextSid := s.nextSid + 1
          signalsByName := s.signalsByName ++ [(name, s.nextSid)]
          signalsById := s.signalsById ++ [(s.nextSid, ⟨name, "", "", ""⟩)]
          buf := s.buf ++ [(s.nextSid, [])] }) := by
      show add_signal_meta s name "" "" "" = _
      rw [add_signal_meta_of_fresh hreg]
    have hwfF : WF { s with
        nextSid := s.nextSid + 1
        signalsByName := s.signalsByName ++ [(name, s.nextSid)]
        signalsById := s.signalsById ++ [(s.nextSid, ⟨name, "", "", ""⟩)]
        buf := s.buf ++ [(s.nextSid, [])] } := by
      have h := add_fresh_wf hwf hreg "" "" ""
      rwa [add_signal_meta_of_fresh hreg] at h
    have hbufnone : assocFind s.buf s.nextSid = none :=
      assocFind_eq_none_iff.mpr fun hm => absurd (bufKey_lt hwf hm) (lt_irrefl _)
    have hbufF : assocFind (s.buf ++ [(s.nextSid, [])]) s.nextSid = some [] := by
      rw [assocFind_append_none hbufnone, assocFind_cons, if_pos rfl]
    have hfindF : assocFind (s.signalsByName ++ [(name, s.nextSid)]) name =
        some s.nextSid := by
      rw [assocFind_append_none hreg, assocFind_cons, if_pos rfl]
    have hbyIdnone : assocFind s.signalsById s.nextSid = none := by
      refine assocFind_eq_none_iff.mpr ?_
      rw [hwf.byIdKeys]
      exact nextSid_not_mem_sids hwf
    have hbyIdF : assocFind
        (s.signalsById ++ [(s.nextSid, (⟨name, "", "", ""⟩ : SigMeta))]) s.nextSid =
        some ⟨name, "", "", ""⟩ := by
      rw [assocFind_append_none hbyIdnone, assocFind_cons, if_pos rfl]
    have hwf2 : WF (freshRecordState s name new) := by
      refine ⟨hwfF.namesND, hwfF.sidsND, hwfF.sidLt, ?_, hwfF.byIdKeys, hwfF.tmpOk⟩
      show (bufAppend (s.buf ++ [(s.nextSid, [])]) s.nextSid new).map Prod.fst = _
      rw [bufAppend_keys]
      exact hwfF.bufKeys
    have htmpnil : tmpCat s.tmp s.nextSid = [] :=
      tmpCat_eq_nil fun c hc => Nat.ne_of_lt (hwf.tmpOk c hc).1
    have hcontent2 : ∀ nm, contentOf (freshRecordState s name new) nm =
        contentOf s nm ++ (if name = nm then new else []) := by
      intro nm
      by_cases hnm : name = nm
      · subst hnm
        rw [contentOf_eq_of_find hfindF, contentOf_eq_of_none hreg, if_pos rfl]
        show tmpCat s.tmp s.nextSid ++
          (assocFind (bufAppend (s.buf ++ [(s.nextSid, [])]) s.nextSid new) s.nextSid).getD [] = _
        rw [htmpnil, assocFind_bufAppend_self, hbufF]
        simp
      · rw [if_neg hnm]
        cases hnm2 : assocFind s.signalsByName nm with
        | none =>
          have hfind2 : assocFind (s.signalsByName ++ [(name, s.nextSid)]) nm = none := by
            rw [assocFind_append_none hnm2, assocFind_cons, if_neg hnm, assocFind_nil]
          rw [contentOf_eq_of_none hfind2, contentOf_eq_of_none hnm2]
          rfl
        | some sid2 =>
          have hfind2 : assocFind (s.signalsByName ++ [(name, s.nextSid)]) nm =
              some sid2 := assocFind_append_some hnm2
          have hne2 : sid2 ≠ s.nextSid := Nat.ne_of_lt (found_sid_lt hwf hnm2)
          rw [contentOf_eq_of_find hfind2, contentOf_eq_of_find hnm2, List.append_nil]
          have hb2 : (assocFind (bufAppend (s.buf ++ [(s.nextSid, [])]) s.nextSid new) sid2).getD ([] : List Reco) =
              (assocFind s.buf sid2).getD [] := by
            rw [assocFind_bufAppend_ne _ _ _ hne2]
            cases hb : assocFind s.buf sid2 with
            | some rs2 => rw [assocFind_append_some hb]
            | none =>
              rw [assocFind_append_none hb, assocFind_cons,
                if_neg (fun h => hne2 h.symm), assocFind_nil]
          exact congrArg (tmpFor s sid2 ++ ·) hb2

    by_cases hflush : cfg.chunkRecords ≤ List.length ([] : List Reco) + new.length
    · refine ⟨flush_signal (freshRecordState s name new) s.nextSid, ?_, ?_, ?_, ?_⟩
      · simp only [recordCore, hget, hbufF, if_pos hflush]
        rfl
      · exact flush_signal_wf hwf2 _
      · intro nm
        rw [flush_signal_contentOf]
        exact hcontent2 nm
      · intro _
        constructor
        · rw [(flush_signal_regs _ _).1]
          exact hfindF
        · rw [(flush_signal_regs _ _).2.1]
          exact hbyIdF
    · refine ⟨freshRecordState s name new, ?_, hwf2, hcontent2, ?_⟩
      · simp only [recordCore, hget, hbufF, if_neg hflush]
        rfl
      · intro _
        exact ⟨hfindF, hbyIdF⟩

/-- Recording through an integer sid, when it succeeds, preserves the
invariant (the sid must already be a buffer key). -/
theorem recordCore_bySid_ok_wf {cfg : WriterConfig} {s : WriterState} {n : Nat}
    {new : List Reco} {s' : WriterState} (hwf : WF s)
    (h : recordCore cfg s (.bySid n) new = .ok s') : WF s' := by
  simp only [recordCore, get_signal_id] at h
  cases hb : assocFind s.buf n with
  | none =>
    simp only [hb] at h
    exact Except.noConfusion h
  | some rs =>
    simp only [hb] at h
    have hwf2 : WF { s with buf := bufAppend s.buf n new } := by
      refine ⟨hwf.namesND, hwf.sidsND, hwf.sidLt, ?_, hwf.byIdKeys, hwf.tmpOk⟩
      show (bufAppend s.buf n new).map Prod.fst = _
      rw [bufAppend_keys]
      exact hwf.bufKeys
    by_cases hflush : cfg.chunkRecords ≤ rs.length + new.length
    · rw [if_pos hflush] at h
      injection h with h
      subst h
      exact flush_signal_wf hwf2 n
    · rw [if_neg hflush] at h
      injection h with h
      subst h
      exact hwf2

/-- One successful step preserves the writer invariant (events of any shape). -/
theorem step_wf {cfg : WriterConfig} {s : WriterState} {e : WEvent}
    {s' : WriterState} (hwf : WF s) (h : step cfg s e = .ok s') : WF s' := by
  cases e with
  | tick =>
    injection h with h
    subst h
    exact flush_all_wf hwf
  | point a t v =>
    cases a with
    | byName nm =>
      have h' : recordCore cfg s (.byName nm) [(t, v)] = .ok s' := h
      obtain ⟨s'', heq, hwf', _, _⟩ := recordCore_ok hwf nm [(t, v)]
      rw [heq] at h'
      injection h' with h'
      subst h'
      exact hwf'
    | bySid n =>
      have h' : recordCore cfg s (.bySid n) [(t, v)] = .ok s' := h
      exact recordCore_bySid_ok_wf hwf h'
  | batch a tss vs =>
    cases a with
    | byName nm =>
      have h' : recordCore cfg s (.byName nm) (tss.zip vs) = .ok s' := h
      obtain ⟨s'', heq, hwf', _, _⟩ := recordCore_ok hwf nm (tss.zip vs)
      rw [heq] at h'
      injection h' with h'
      subst h'
      exact hwf'
    | bySid n =>
      have h' : recordCore cfg s (.bySid n) (tss.zip vs) = .ok s' := h
      exact recordCore_bySid_ok_wf hwf h'

/-- One successful name-addressed step grows each signal's content by exactly
what the event submits for it. -/
theorem step_content {cfg : WriterConfig} {s : WriterState} {e : WEvent}
    {s' : WriterState} (hwf : WF s) (hne : eventNamesOnlyB e = true)
    (h : step cfg s e = .ok s') :
    ∀ nm, contentOf s' nm = contentOf s nm ++ submittedOne nm e := by
  cases e with
  | tick =>
    intro nm
    injection h with h
    subst h
    rw [flush_all_contentOf]
    simp [submittedOne]
  | point a t v =>
    cases a with
    | bySid n => simp [eventNamesOnlyB] at hne
    | byName n =>
      have h' : recordCore cfg s (.byName n) [(t, v)] = .ok s' := h
      obtain ⟨s'', heq, _, hcont, _⟩ := recordCore_ok hwf n [(t, v)]
      rw [heq] at h'
      injection h' with h'
      subst h'
      exact hcont
  | batch a tss vs =>
    cases a with
    | bySid n => simp [eventNamesOnlyB] at hne
    | byName n =>
      have h' : recordCore cfg s (.byName n) (tss.zip vs) = .ok s' := h
      obtain ⟨s'', heq, _, hcont, _⟩ := recordCore_ok hwf n (tss.zip vs)
      rw [heq] at h'
      injection h' with h'
      subst h'
      exact hcont

theorem submitted_cons (name : String) (e : WEvent) (es : List WEvent) :
    submitted name (e :: es) = submittedOne name e ++ submitted name es := by
  cases e with
  | point a t v => cases a <;> simp [submitted, submittedOne]
  | batch a tss vs => cases a <;> simp [submitted, submittedOne]
  | tick => simp [submitted, submittedOne]

/-- A successful name-addressed run from a well-formed state ends well-formed
with each signal's content grown by exactly its submitted records. -/
theorem run_ok {cfg : WriterConfig} {es : List WEvent} :
    ∀ {s s' : WriterState}, WF s → namesOnlyB es = true →
      run cfg s es = .ok s' →
      WF s' ∧ ∀ nm, contentOf s' nm = contentOf s nm ++ submitted nm es := by
  induction es with
  | nil =>
    intro s s' hwf _ h
    injection h with h
    subst h
    exact ⟨hwf, fun nm => by simp [submitted]⟩
  | cons e es ih =>
    intro s s' hwf hno h
    have hne : eventNamesOnlyB e = true ∧ namesOnlyB es = true := by
      simpa [namesOnlyB, Bool.and_eq_true] using hno
    cases hstep : step cfg s e with
    | error msg =>
      rw [show run cfg s (e :: es) = (step cfg s e).bind
          (fun s1 => run cfg s1 es) from rfl, hstep] at h
      exact (Except.noConfusion h)
    | ok s1 =>
      rw [show run cfg s (e :: es) = (step cfg s e).bind
          (fun s1 => run cfg s1 es) from rfl, hstep] at h
      have h1 : run cfg s1 es = .ok s' := h
      obtain ⟨hwf', hcont'⟩ := ih (step_wf hwf hstep) hne.2 h1
      refine ⟨hwf', fun nm => ?_⟩
      rw [hcont' nm, step_content hwf hne.1 hstep nm, submitted_cons,
        List.append_assoc]

/-- A successful run from a well-formed state (any event shapes) ends
well-formed. -/
theorem run_wf {cfg : WriterConfig} {es : List WEvent} :
    ∀ {s s' : WriterState}, WF s → run cfg s es = .ok s' → WF s' := by
  induction es with
  | nil =>
    intro s s' hwf h
    injection h with h
    subst h
    exact hwf
  | cons e es ih =>
    intro s s' hwf h
    cases hstep : step cfg s e with
    | error msg =>
      rw [show run cfg s (e :: es) = (step cfg s e).bind
          (fun s1 => run cfg s1 es) from rfl, hstep] at h
      exact (Except.noConfusion h)
    | ok s1 =>
      rw [show run cfg s (e :: es) = (step cfg s e).bind
          (fun s1 => run cfg s1 es) from rfl, hstep] at h
      exact ih (step_wf hwf hstep) h

theorem initWriter_wf : WF initWriter := by
  refine ⟨?_, ?_, ?_, rfl, rfl, ?_⟩ <;> simp [initWriter]

theorem contentOf_init (nm : String) : contentOf initWriter nm = [] := rfl

/-! ## Reading a built file -/

/-- What a well-formed index entry makes `iter_chunks` yield. -/
def chunkOut (f : PltFile) (e : IndexEntry) : List ℚ × List ℚ :=
  match chunkAt f e.off with
  | some c => (c.payload.map Prod.fst, c.payload.map Prod.snd)
  | none => ([], [])

/-- Over well-formed entries, `iter_chunks` yields one chunk per entry and no
error. -/
theorem iterChunksFrom_wf (f : PltFile) (sid : Nat) :
    ∀ es : List IndexEntry, (∀ e ∈ es, entryWFb f sid e = true) →
      iterChunksFrom f sid es = (es.map (chunkOut f), none) := by
  intro es h
  induction es with
  | nil => rfl
  | cons e es ih =>
    have he := h e (List.mem_cons_self e es)
    unfold entryWFb at he
    cases hc : chunkAt f e.off with
    | none => rw [hc] at he; exact Bool.noConfusion he
    | some c =>
      rw [hc] at he
      simp only [Bool.and_eq_true, decide_eq_true_eq] at he
      obtain ⟨⟨⟨hm, hs⟩, hr⟩, hn⟩ := he
      have htail := ih fun e' he' => h e' (List.mem_cons.mpr (Or.inr he'))
      have htake : takeRecords c = .ok c.payload := by
        unfold takeRecords
        rw [if_pos (le_of_eq hn), hn, List.take_length]
      simp only [iterChunksFrom, hc]
      rw [if_neg (not_not_intro hm), if_neg (not_not_intro hs),
        if_neg (not_not_intro hr), htake, htail]
      simp [chunkOut, hc]

/-- The chunk region of a built file, addressed by offset. -/
theorem chunkAt_build (s : WriterState) {i : Nat} {p : Nat × List Reco}
    (h : s.tmp.get? i = some p) :
    chunkAt (buildFinal s) i = some (mkChunk p.1 p.2) := by
  unfold chunkAt buildFinal
  rw [List.get?_map, h]
  rfl

/-- The reader's per-signal index of a built file. -/
theorem indexFor_build (s : WriterState) (sid : Nat) :
    indexFor (buildFinal s) sid =
      (s.tmp.enum.filter fun ip => ip.2.1 = sid).map
        (fun ip => ⟨ip.2.1, ip.1, tsMin ip.2.2, tsMax ip.2.2⟩) := by
  unfold indexFor buildFinal
  rw [List.filter_map]
  rfl

/-- Every index entry of a built file is well-formed for its signal. -/
theorem entryWFb_build (s : WriterState) (sid : Nat) :
    ∀ e ∈ indexFor (buildFinal s) sid, entryWFb (buildFinal s) sid e = true := by
  intro e he
  rw [indexFor_build] at he
  obtain ⟨ip, hip, rfl⟩ := List.mem_map.mp he
  have hmem : ip ∈ s.tmp.enum := (List.mem_filter.mp hip).1
  have hsid : ip.2.1 = sid := by simpa using (List.mem_filter.mp hip).2
  have hget : s.tmp.get? ip.1 = some ip.2 := List.mem_enum_iff_get?.mp hmem
  have hc := chunkAt_build s hget
  simp only [entryWFb, hc]
  simp [mkChunk, decompLen, hsid]

/-- Reading `iter_chunks` on a built file: the chunks of the signal, in write order,
with no error. -/
theorem iter_chunks_build (s : WriterState) (sid : Nat) :
    iter_chunks (buildFinal s) sid =
      ((s.tmp.filter fun p => p.1 = sid).map
        (fun p => (p.2.map Prod.fst, p.2.map Prod.snd)), none) := by
  unfold iter_chunks
  rw [iterChunksFrom_wf _ _ _ (entryWFb_build s sid), indexFor_build,
    List.map_map]
  have hmapeq : ∀ ip ∈ (s.tmp.enum.filter fun ip => ip.2.1 = sid),
      (chunkOut (buildFinal s) ∘ fun ip =>
        (⟨ip.2.1, ip.1, tsMin ip.2.2, tsMax ip.2.2⟩ : IndexEntry)) ip =
      ((fun p => (p.2.map Prod.fst, p.2.map Prod.snd)) ∘ Prod.snd) ip := by
    intro ip hip
    have hmem : ip ∈ s.tmp.enum := (List.mem_filter.mp hip).1
    have hget : s.tmp.get? ip.1 = some ip.2 := List.mem_enum_iff_get?.mp hmem
    have hc := chunkAt_build s hget
    show chunkOut (buildFinal s) ⟨ip.2.1, ip.1, tsMin ip.2.2, tsMax ip.2.2⟩ = _
    simp only [chunkOut, hc]
    rfl
  rw [List.map_congr_left hmapeq, ← List.map_map]
  congr 1
  have hsnd : (s.tmp.enum.filter fun ip => ip.2.1 = sid).map Prod.snd =
      s.tmp.filter fun p => p.1 = sid := by
    show ((s.tmp.enum.filter
      ((fun p : Nat × List Reco => decide (p.1 = sid)) ∘ Prod.snd)).map Prod.snd) = _
    rw [← List.filter_map, List.enum_map_snd]
  rw [hsnd]

/-- Reading `read_signal_all` on a built file returns the concatenated records of the
signal's temp chunks, split into the two lists of the record fields. -/
theorem read_signal_all_build (s : WriterState) (sid : Nat) :
    read_signal_all (buildFinal s) sid =
      .ok ((tmpCat s.tmp sid).map Prod.fst, (tmpCat s.tmp sid).map Prod.snd) := by
  unfold read_signal_all
  rw [iter_chunks_build]
  simp only [tmpCat, List.map_flatten, List.map_map]
  rfl

/-! ## Claim C1: write-read round trip -/

/-- C1.  Write-read round-trip: for every writer session (any mix of
`record_point`/`record_batch` addressed by name, with periodic-flush ticks
anywhere and any `chunk_records`), `PltReader.read_signal_all(sid)` on the
file produced by `stop_and_save` returns, for each registered signal, exactly
the recorded `(ts, val)` pairs of that signal in submission order, with values
unchanged (bit-identity of `float64` is equality in this embedding); and the
returned sequence depends only on the submitted records — it is the same for
every choice of `chunk_records` and of flush-tick schedule (the observable
effect of `flush_interval_sec`). -/
theorem c1_write_read_roundtrip :
    (∀ (cfg : WriterConfig) (es : List WEvent) (s : WriterState)
      (name : String) (sid : Nat),
      namesOnlyB es = true →
      run cfg initWriter es = .ok s →
      assocFind s.signalsByName name = some sid →
      read_signal_all (stop_and_save_file s) sid =
        .ok ((submitted name es).map Prod.fst, (submitted name es).map Prod.snd))
    ∧
    (∀ (cfg1 cfg2 : WriterConfig) (es1 es2 : List WEvent)
      (s1 s2 : WriterState) (name : String) (sid1 sid2 : Nat),
      namesOnlyB es1 = true → namesOnlyB es2 = true →
      (∀ nm, submitted nm es1 = submitted nm es2) →
      run cfg1 initWriter es1 = .ok s1 → run cfg2 initWriter es2 = .ok s2 →
      assocFind s1.signalsByName name = some sid1 →
      assocFind s2.signalsByName name = some sid2 →
      read_signal_all (stop_and_save_file s1) sid1 =
        read_signal_all (stop_and_save_file s2) sid2) := by
  have part1 : ∀ (cfg : WriterConfig) (es : List WEvent) (s : WriterState)
      (name : String) (sid : Nat),
      namesOnlyB es = true →
      run cfg initWriter es = .ok s →
      assocFind s.signalsByName name = some sid →
      read_signal_all (stop_and_save_file s) sid =
        .ok ((submitted name es).map Prod.fst, (submitted name es).map Prod.snd) := by
    intro cfg es s name sid hno hrun hfind
    obtain ⟨hwf, hcont⟩ := run_ok initWriter_wf hno hrun
    have hc : contentOf s name = submitted name es := by
      rw [hcont name, contentOf_init]
      simp
    unfold stop_and_save_file
    rw [read_signal_all_build]
    have h1 : tmpCat (flush_all s).tmp sid = contentOf s name := by
      show tmpFor (flush_all s) sid = _
      rw [flush_all_tmpFor, ← contentOf_eq_of_find hfind]
    rw [h1, hc]
  refine ⟨part1, ?_⟩
  intro cfg1 cfg2 es1 es2 s1 s2 name sid1 sid2 hno1 hno2 hsub hrun1 hrun2 hf1 hf2
  rw [part1 cfg1 es1 s1 name sid1 hno1 hrun1 hf1,
    part1 cfg2 es2 s2 name sid2 hno2 hrun2 hf2, hsub name]

/-- Witness for C1 at a concrete session: one `record_point` and one
`record_batch` for signal `"a"` with `chunk_records = 2` (so a flush happens
mid-session); reading signal 1 back returns the three records in order. -/
theorem c1_write_read_roundtrip_witness :
    read_signal_all (stop_and_save_file
      ⟨[("a", 1)], [(1, ⟨"a", "", "", ""⟩)], 2, [(1, [])],
        [(1, [(1, 10), (2, 20), (3, 30)])]⟩) 1 =
      .ok ([1, 2, 3], [10, 20, 30]) := by
  have h := c1_write_read_roundtrip.1 ⟨2⟩
    [.point (.byName "a") 1 10, .batch (.byName "a") [2, 3] [20, 30]]
    ⟨[("a", 1)], [(1, ⟨"a", "", "", ""⟩)], 2, [(1, [])],
      [(1, [(1, 10), (2, 20), (3, 30)])]⟩ "a" 1
    (by decide) (by rfl) (by decide)
  rw [show submitted "a"
      [.point (.byName "a") 1 10, .batch (.byName "a") [2, 3] [20, 30]] =
      [(1, 10), (2, 20), (3, 30)] from rfl] at h
  simpa using h

/-! ## Claim C4: chunk invariants -/

theorem foldl_min_le_foldl_max {a b : ℚ} (h : a ≤ b) (l : List Reco) :
    l.foldl (fun m p => min m p.1) a ≤ l.foldl (fun m p => max m p.1) b := by
  induction l generalizing a b with
  | nil => exact h
  | cons p l ih =>
    exact ih (le_trans (min_le_left _ _) (le_trans h (le_max_left _ _)))

theorem tsMin_le_tsMax {rs : List Reco} (h : rs ≠ []) : tsMin rs ≤ tsMax rs := by
  cases rs with
  | nil => exact absurd rfl h
  | cons r rs => exact foldl_min_le_foldl_max (le_refl r.1) rs

/-- C4 (amended).  Every chunk the writer appends to the temp file (and hence
copies into the final file) holds the records of exactly one signal and
satisfies `n ≥ 1`, `raw_len = n * 16` exactly, and `min_ts ≤ max_ts`, both
computed over the chunk's record timestamps (finite by construction in this
embedding).  The bound `n ≤ chunk_records` of the original claim does NOT
hold: a single `record_batch` larger than `chunk_records` is flushed as one
oversized chunk (see the counterexample). -/
theorem c4_chunk_invariant :
    ∀ (cfg : WriterConfig) (es : List WEvent) (s : WriterState),
      run cfg initWriter es = .ok s →
      ∀ p ∈ s.tmp, 1 ≤ (mkChunk p.1 p.2).n ∧
        (mkChunk p.1 p.2).rawLen = (mkChunk p.1 p.2).n * 16 ∧
        (mkChunk p.1 p.2).minTs ≤ (mkChunk p.1 p.2).maxTs := by
  intro cfg es s hrun p hp
  have hwf := run_wf initWriter_wf hrun
  have hne := (hwf.tmpOk p hp).2
  refine ⟨?_, ?_, ?_⟩
  · show 1 ≤ p.2.length
    exact Nat.succ_le_of_lt (List.length_pos.mpr hne)
  · show 16 * p.2.length = p.2.length * 16
    exact Nat.mul_comm _ _
  · show tsMin p.2 ≤ tsMax p.2
    exact tsMin_le_tsMax hne

/-- Counterexample to C4 as stated: with `chunk_records = 2`, a single
`record_batch` of three points produces one chunk with `n = 3 > 2`. -/
theorem c4_counterexample :
    run ⟨2⟩ initWriter [.batch (.byName "a") [0, 1, 2] [0, 0, 0]] =
      .ok ⟨[("a", 1)], [(1, ⟨"a", "", "", ""⟩)], 2, [(1, [])],
        [(1, [(0, 0), (1, 0), (2, 0)])]⟩ ∧
    ¬((mkChunk 1 [(0, 0), (1, 0), (2, 0)]).n ≤ (⟨2⟩ : WriterConfig).chunkRecords) := by
  exact ⟨rfl, by decide⟩

/-- Witness for C4 at the same concrete oversized-batch session. -/
theorem c4_chunk_invariant_witness :
    1 ≤ (mkChunk 1 [(0, 0), (1, 0), (2, 0)]).n ∧
    (mkChunk 1 [(0, 0), (1, 0), (2, 0)]).rawLen =
      (mkChunk 1 [(0, 0), (1, 0), (2, 0)]).n * 16 ∧
    (mkChunk 1 [(0, 0), (1, 0), (2, 0)]).minTs ≤
      (mkChunk 1 [(0, 0), (1, 0), (2, 0)]).maxTs := by
  exact c4_chunk_invariant ⟨2⟩ [.batch (.byName "a") [0, 1, 2] [0, 0, 0]]
    ⟨[("a", 1)], [(1, ⟨"a", "", "", ""⟩)], 2, [(1, [])],
      [(1, [(0, 0), (1, 0), (2, 0)])]⟩ (by rfl)
    (1, [(0, 0), (1, 0), (2, 0)]) (by decide)

/-! ## Claim C7: implicit registration on record -/

/-- C7 (amended).  `record_point` registers an unregistered NAME implicitly
with empty `unit`/`description`/`source` under sid `_next_sid`, appends the
record to that signal's buffer, and returns without error.  An integer
`name_or_sid` argument, however, is used verbatim without registration: an
unregistered integer sid raises `KeyError` (so the original claim's "whether
given as a name or as an integer sid" fails). -/
theorem c7_implicit_registration :
    (∀ (cfg : WriterConfig) (s : WriterState) (name : String) (ts v : ℚ),
      wfb s = true → assocFind s.signalsByName name = none →
      ∃ s', record_point cfg s (.byName name) ts v = .ok s' ∧
        assocFind s'.signalsByName name = some s.nextSid ∧
        assocFind s'.signalsById s.nextSid = some ⟨name, "", "", ""⟩ ∧
        contentOf s' name = [(ts, v)])
    ∧
    (∀ (cfg : WriterConfig) (s : WriterState) (n : Nat) (ts v : ℚ),
      n ∉ s.buf.map Prod.fst →
      record_point cfg s (.bySid n) ts v = .error "KeyError") := by
  constructor
  · intro cfg s name ts v hwfb hnone
    obtain ⟨s', heq, _, hcont, hreg⟩ :=
      @recordCore_ok cfg s (wfb_iff.mp hwfb) name [(ts, v)]
    obtain ⟨hfind, hbyId⟩ := hreg hnone
    refine ⟨s', by rw [record_point_eq]; exact heq, hfind, hbyId, ?_⟩
    rw [hcont name, contentOf_eq_of_none hnone, if_pos rfl]
    rfl
  · intro cfg s n ts v h
    have hb : assocFind s.buf n = none := assocFind_eq_none_iff.mpr h
    show recordCore cfg s (.bySid n) [(ts, v)] = .error "KeyError"
    simp only [recordCore, get_signal_id, hb]

/-- Counterexample to C7 as stated: recording through the unregistered
integer sid 5 on a fresh writer raises `KeyError` instead of registering. -/
theorem c7_counterexample :
    record_point ⟨2048⟩ initWriter (.bySid 5) 0 0 = .error "KeyError" := rfl

/-- Witness for C7: implicit registration of the fresh name `"x"`. -/
theorem c7_implicit_registration_witness :
    ∃ s', record_point ⟨2048⟩ initWriter (.byName "x") 1 2 = .ok s' ∧
      assocFind s'.signalsByName "x" = some 1 ∧
      assocFind s'.signalsById 1 = some ⟨"x", "", "", ""⟩ ∧
      contentOf s' "x" = [(1, 2)] := by
  have h := c7_implicit_registration.1 ⟨2048⟩ initWriter "x" 1 2 (by decide) (by rfl)
  simpa using h

/-! ## Claim C10: `record_batch` positional zip truncation -/

/-- C10.  `record_batch(name, timestamps, values)` pairs the two iterables
positionally and silently truncates to the shorter one: exactly
`min (len timestamps) (len values)` records are appended (the excess of the
longer iterable is dropped) and no error is raised. -/
theorem c10_record_batch_truncation :
    ∀ (cfg : WriterConfig) (s : WriterState) (name : String) (tss vs : List ℚ),
      wfb s = true →
      ∃ s', record_batch cfg s (.byName name) tss vs = .ok s' ∧
        contentOf s' name = contentOf s name ++ tss.zip vs ∧
        (tss.zip vs).length = min tss.length vs.length := by
  intro cfg s name tss vs hwfb
  obtain ⟨s', heq, _, hcont, _⟩ :=
    @recordCore_ok cfg s (wfb_iff.mp hwfb) name (tss.zip vs)
  refine ⟨s', by rw [record_batch_eq]; exact heq, ?_, ?_⟩
  · rw [hcont name, if_pos rfl]
  · exact List.length_zip _ _

/-- Witness for C10 with iterables of unequal length (3 timestamps, 2
values): two records appended, the third timestamp dropped, no error. -/
theorem c10_record_batch_truncation_witness :
    ∃ s', record_batch ⟨10⟩ initWriter (.byName "a") [1, 2, 3] [10, 20] = .ok s' ∧
      contentOf s' "a" = [(1, 10), (2, 20)] ∧
      (([1, 2, 3] : List ℚ).zip ([10, 20] : List ℚ)).length = min 3 2 := by
  obtain ⟨s', h1, h2, h3⟩ :=
    c10_record_batch_truncation ⟨10⟩ initWriter "a" [1, 2, 3] [10, 20] (by decide)
  exact ⟨s', h1, by simpa using h2, h3⟩

/-! ## Claim C2: decompressed-length verification -/

/-- If an `iter_chunks` call finishes without error, every chunk it visited
passed the `len(raw) != raw_len` check. -/
theorem iterChunksFrom_len_check {f : PltFile} {sid : Nat} :
    ∀ es : List IndexEntry, (iterChunksFrom f sid es).2 = none →
      ∀ e ∈ es, ∀ c, chunkAt f e.off = some c → decompLen c = c.rawLen := by
  intro es
  induction es with
  | nil => intro _ e he; simp at he
  | cons e0 es ih =>
    intro h e' he' c hc
    simp only [iterChunksFrom] at h
    cases hc0 : chunkAt f e0.off with
    | none => rw [hc0] at h; simp at h
    | some c0 =>
      simp only [hc0] at h
      by_cases hm : c0.magic ≠ "CHNK"
      · rw [if_pos hm] at h; simp at h
      rw [if_neg hm] at h
      by_cases hs : c0.sid ≠ sid
      · rw [if_pos hs] at h; simp at h
      rw [if_neg hs] at h
      by_cases hr : decompLen c0 ≠ c0.rawLen
      · rw [if_pos hr] at h; simp at h
      rw [if_neg hr] at h
      cases ht : takeRecords c0 with
      | error m => simp only [ht] at h; simp at h
      | ok rs =>
        simp only [ht] at h
        rcases List.mem_cons.mp he' with rfl | hmem
        · rw [hc0] at hc
          injection hc with hc
          subst hc
          exact not_ne_iff.mp hr
        · exact ih h e' hmem c hc

/-- C2 (amended).  Every chunk decompression performed by `iter_chunks`
verifies the decoded byte length against the header's `raw_len` and the call
fails on mismatch, yielding no records from that chunk: a call that returns
without error visited only chunks whose decompressed length equals `raw_len`.
`iter_time_range`, by contrast, performs NO such verification (see the
counterexample): it can yield records from a chunk whose decompressed length
differs from `raw_len`. -/
theorem c2_iter_chunks_length_check :
    ∀ (f : PltFile) (sid : Nat),
      (iter_chunks f sid).2 = none →
      ∀ e ∈ indexFor f sid, ∀ c, chunkAt f e.off = some c →
        decompLen c = c.rawLen := by
  intro f sid h
  exact iterChunksFrom_len_check (indexFor f sid) h

/-- A file whose single chunk header understates the decompressed length
(`raw_len = 16` but the payload decompresses to 32 bytes). -/
def badFileC2 : PltFile :=
  ⟨[(1, ⟨"s", "", "", ""⟩)],
    [⟨"CHNK", 1, 1, 16, 32, 0, 1, [(0, 5), (1, 6)]⟩],
    [⟨1, 0, 0, 1⟩]⟩

/-- Counterexample to C2 as stated: on a chunk whose decompressed length
differs from `raw_len`, `iter_chunks` raises the mismatch error and yields
nothing, but `iter_time_range` raises no error and yields a record from that
very chunk. -/
theorem c2_counterexample :
    decompLen ⟨"CHNK", 1, 1, 16, 32, 0, 1, [(0, 5), (1, 6)]⟩ ≠
      (⟨"CHNK", 1, 1, 16, 32, 0, 1, [(0, 5), (1, 6)]⟩ : ChunkFrame).rawLen ∧
    iter_chunks badFileC2 1 = ([], some "Decompressed length mismatch") ∧
    iter_time_range badFileC2 1 (-1) 10 = ([([0], [5])], none) := by
  exact ⟨by decide, rfl, rfl⟩

/-- A well-formed single-chunk file for the C2 witness. -/
def goodFileC2 : PltFile :=
  ⟨[(1, ⟨"s", "", "", ""⟩)],
    [⟨"CHNK", 1, 2, 32, 32, 0, 1, [(0, 5), (1, 6)]⟩],
    [⟨1, 0, 0, 1⟩]⟩

/-- Witness for C2: on a clean read of `goodFileC2`, the visited chunk's
decompressed length equals its `raw_len`. -/
theorem c2_iter_chunks_length_check_witness :
    decompLen ⟨"CHNK", 1, 2, 32, 32, 0, 1, [(0, 5), (1, 6)]⟩ =
      (⟨"CHNK", 1, 2, 32, 32, 0, 1, [(0, 5), (1, 6)]⟩ : ChunkFrame).rawLen := by
  exact c2_iter_chunks_length_check goodFileC2 1 rfl ⟨1, 0, 0, 1⟩ (by decide)
    ⟨"CHNK", 1, 2, 32, 32, 0, 1, [(0, 5), (1, 6)]⟩ rfl

/-! ## Claim C5: time-range pushdown -/

/-- Keep only the records of a yielded chunk with `t1 ≤ ts ≤ t2`. -/
def rangeFilter (t1 t2 : ℚ) (o : List ℚ × List ℚ) : List ℚ × List ℚ :=
  let ps := (o.1.zip o.2).filter fun r => t1 ≤ r.1 ∧ r.1 ≤ t2
  (ps.map Prod.fst, ps.map Prod.snd)

/-- Drop the yielded chunks that retain no record. -/
def dropEmpty : List (List ℚ × List ℚ) → List (List ℚ × List ℚ)
  | [] => []
  | o :: os => if o.1 = [] then dropEmpty os else o :: dropEmpty os

/-- Over well-formed entries with sound bounds, `iter_time_range` equals the
range-filtered `iter_chunks` output with empty chunks dropped. -/
theorem iterRangeFrom_eq {f : PltFile} {sid : Nat} {t1 t2 : ℚ} :
    ∀ es : List IndexEntry,
      (∀ e ∈ es, entryWFb f sid e = true ∧ entryBoundsB f e = true) →
      iterRangeFrom f sid t1 t2 es =
        (dropEmpty ((es.map (chunkOut f)).map (rangeFilter t1 t2)), none) := by
  intro es h
  induction es with
  | nil => rfl
  | cons e es ih =>
    obtain ⟨hwfe, hbde⟩ := h e (List.mem_cons_self e es)
    have htail := ih fun e' he' => h e' (List.mem_cons.mpr (Or.inr he'))
    unfold entryWFb at hwfe
    unfold entryBoundsB at hbde
    cases hc : chunkAt f e.off with
    | none => rw [hc] at hwfe; exact Bool.noConfusion hwfe
    | some c =>
      rw [hc] at hwfe hbde
      simp only [Bool.and_eq_true, decide_eq_true_eq] at hwfe hbde
      obtain ⟨⟨⟨hm, hs⟩, hr⟩, hn⟩ := hwfe
      obtain ⟨hmnmx, hbd⟩ := hbde
      simp only [List.all_eq_true, Bool.and_eq_true, decide_eq_true_eq] at hbd
      have htake : takeRecords c = .ok c.payload := by
        unfold takeRecords
        rw [if_pos (le_of_eq hn), hn, List.take_length]
      have hhead : rangeFilter t1 t2 (chunkOut f e) =
          ((c.payload.filter fun r => t1 ≤ r.1 ∧ r.1 ≤ t2).map Prod.fst,
           (c.payload.filter fun r => t1 ≤ r.1 ∧ r.1 ≤ t2).map Prod.snd) := by
        simp only [chunkOut, hc, rangeFilter, List.zip_map', Prod.mk.eta,
          List.map_id']
      by_cases hskip : e.maxTs < t1 ∨ e.minTs > t2
      · have hnone : c.payload.filter (fun r => t1 ≤ r.1 ∧ r.1 ≤ t2) = [] := by
          refine List.filter_eq_nil_iff.mpr ?_
          intro r hrm
          obtain ⟨h1, h2⟩ := hbd r hrm
          simp only [decide_eq_true_eq]
          intro hcon
          rcases hskip with hsk | hsk
          · exact absurd hcon.1 (not_le.mpr (lt_of_le_of_lt h2 hsk))
          · exact absurd hcon.2 (not_le.mpr (lt_of_lt_of_le hsk h1))
        have h1 : (rangeFilter t1 t2 (chunkOut f e)).1 = [] := by
          rw [hhead, hnone]
          rfl
        simp only [iterRangeFrom]
        rw [if_pos hskip, htail, List.map_cons, List.map_cons]
        simp only [dropEmpty]
        rw [if_pos h1]
      · simp only [iterRangeFrom]
        rw [if_neg hskip]
        simp only [hc]
        rw [if_neg (not_not_intro hm), if_neg (not_not_intro hs)]
        simp only [htake]
        by_cases hkeep : c.payload.filter (fun r => t1 ≤ r.1 ∧ r.1 ≤ t2) = []
        · have h1 : (rangeFilter t1 t2 (chunkOut f e)).1 = [] := by
            rw [hhead, hkeep]
            rfl
          rw [if_pos hkeep, htail, List.map_cons, List.map_cons]
          simp only [dropEmpty]
          rw [if_pos h1]
        · have h1 : ¬((rangeFilter t1 t2 (chunkOut f e)).1 = []) := by
            rw [hhead]
            show ¬(List.map Prod.fst _ = [])
            rw [List.map_eq_nil_iff]
            exact hkeep
          rw [if_neg hkeep, htail, List.map_cons, List.map_cons]
          simp only [dropEmpty]
          rw [if_neg h1, hhead]

/-- C5.  Time-range pushdown: over a file whose indexed chunks for `sid` are
well-formed with sound `[min_ts, max_ts]` bounds, `iter_time_range(sid, t1,
t2)` yields exactly the records of `iter_chunks(sid)` with `ts ∈ [t1, t2]`, in
the same order, grouped per chunk, chunks retaining no record omitted, with
no error; and every chunk entry it reads (i.e. does not skip) has an index
interval intersecting `[t1, t2]`. -/
theorem c5_time_range_pushdown :
    ∀ (f : PltFile) (sid : Nat) (t1 t2 : ℚ),
      (∀ e ∈ indexFor f sid, entryWFb f sid e = true ∧ entryBoundsB f e = true) →
      t1 ≤ t2 →
      iter_time_range f sid t1 t2 =
        (dropEmpty ((iter_chunks f sid).1.map (rangeFilter t1 t2)), none) ∧
      (iter_chunks f sid).2 = none ∧
      ∀ e ∈ readEntries f sid t1 t2,
        (Set.Icc e.minTs e.maxTs ∩ Set.Icc t1 t2).Nonempty := by
  intro f sid t1 t2 h ht12
  have hic : iter_chunks f sid = ((indexFor f sid).map (chunkOut f), none) :=
    iterChunksFrom_wf f sid _ fun e he => (h e he).1
  refine ⟨?_, by rw [hic], ?_⟩
  · show iterRangeFrom f sid t1 t2 (indexFor f sid) = _
    rw [iterRangeFrom_eq _ h, hic]
  · intro e he
    have hmem := List.mem_filter.mp he
    have hskip : ¬(e.maxTs < t1 ∨ e.minTs > t2) := by
      simpa using hmem.2
    obtain ⟨hwfe, hbde⟩ := h e hmem.1
    unfold entryBoundsB at hbde
    cases hc : chunkAt f e.off with
    | none => rw [hc] at hbde; exact Bool.noConfusion hbde
    | some c =>
      rw [hc] at hbde
      simp only [Bool.and_eq_true, decide_eq_true_eq] at hbde
      have hmnmx := hbde.1
      push_neg at hskip
      refine ⟨max e.minTs t1, Set.mem_inter ?_ ?_⟩
      · exact Set.mem_Icc.mpr ⟨le_max_left _ _, max_le hmnmx hskip.1⟩
      · exact Set.mem_Icc.mpr ⟨le_max_right _ _, max_le hskip.2 ht12⟩

/-- A two-chunk file for the C5 witness: chunk 0 spans `[0, 1]`, chunk 1 is
the single instant `4`. -/
def fileC5 : PltFile :=
  ⟨[(1, ⟨"s", "", "", ""⟩)],
    [⟨"CHNK", 1, 2, 32, 32, 0, 1, [(0, 5), (1, 6)]⟩,
     ⟨"CHNK", 1, 1, 16, 16, 4, 4, [(4, 7)]⟩],
    [⟨1, 0, 0, 1⟩, ⟨1, 1, 4, 4⟩]⟩

/-- Witness for C5 on `fileC5` with query `[1, 2]`: the pushdown equality
holds, and the read (non-skipped) entry `(0, 1)` indeed intersects `[1, 2]`. -/
theorem c5_time_range_pushdown_witness :
    iter_time_range fileC5 1 1 2 =
      (dropEmpty ((iter_chunks fileC5 1).1.map (rangeFilter 1 2)), none) ∧
    (Set.Icc (0 : ℚ) 1 ∩ Set.Icc 1 2).Nonempty := by
  have h := c5_time_range_pushdown fileC5 1 1 2 (by decide) (by norm_num)
  exact ⟨h.1, h.2.2 ⟨1, 0, 0, 1⟩ (by decide)⟩

/-! ## Claim C8: codec selection -/

/-- C8 (amended).  `_pick_compression` follows the spec's table — "none" →
NONE; "zstd" → ZSTD if available else DEFLATE; "lz4" → LZ4 if available else
DEFLATE; other strings → DEFLATE; matching case-insensitively — EXCEPT for
the empty string, which is falsy in `(name or "zstd")` and therefore selects
the default "zstd" tag instead of DEFLATE. -/
theorem c8_codec_selection :
    ∀ (z l : Bool) (s : String),
      pick_compression z l (some s) =
        if s = "" then (if z then 3 else 1) else specCodecChoice z l s := by
  intro z l s
  by_cases hs : s = ""
  · subst hs
    rw [if_pos rfl]
    cases z <;> rfl
  · rw [if_neg hs]
    unfold pick_compression specCodecChoice
    simp only [if_neg hs]
    by_cases h0 : strLower s = "none"
    · simp [h0]
    · by_cases h1 : strLower s = "zstd"
      · cases z <;> simp [h0, h1]
      · by_cases h2 : strLower s = "lz4" <;> cases z <;> cases l <;>
          simp [h0, h1, h2]

/-- Counterexample to C8 as stated: with the zstd library available, the
empty tag string selects ZSTD (code 3), not DEFLATE (code 1) as the "every
other string maps to DEFLATE" clause demands. -/
theorem c8_counterexample :
    pick_compression true true (some "") = 3 ∧
    specCodecChoice true true "" = 1 ∧
    pick_compression true true (some "") ≠ specCodecChoice true true "" := by
  exact ⟨rfl, rfl, by decide⟩

/-! ## Claim C3: public-name collision policy -/

/-- C3 (amended).  `ReaderManager.get_signal_name` counts occurrences of the
original name among the current ASSIGNED keys of `signal_map`; since dict
keys are unique that count is 1 for any present name, so every duplicate
registration of an original name is assigned `name[2]` — the third and later
registrations reuse (and overwrite) `name[2]` rather than getting
`name[m+1]`. -/
theorem c3_collision_policy :
    ∀ (st : RMState) (signal : String), (rmKeys st).Nodup →
      get_signal_name st signal =
        if signal ∈ rmKeys st then signal ++ "[" ++ "2" ++ "]" else signal := by
  intro st signal hnd
  unfold get_signal_name
  by_cases hm : signal ∈ rmKeys st
  · rw [if_pos hm, if_pos hm]
    have hle := List.nodup_iff_count_le_one.mp hnd signal
    have hpos : 0 < (rmKeys st).count signal := List.count_pos_iff.mpr hm
    have hcount : (rmKeys st).count signal = 1 := by omega
    rw [hcount]
    rfl
  · rw [if_neg hm, if_neg hm]

/-- Counterexample to C3 as stated: registering the original name `"x"` three
times assigns `["x", "x[2]", "x[2]"]` — the third registration gets `x[2]`
(not `x[3]`), which is NOT distinct from the second assignment. -/
theorem c3_counterexample :
    (registerSignals ⟨[]⟩ ["x", "x", "x"]).2 = ["x", "x[2]", "x[2]"] ∧
    (registerSignals ⟨[]⟩ ["x", "x", "x"]).2.get? 2 ≠ some "x[3]" ∧
    ¬(registerSignals ⟨[]⟩ ["x", "x", "x"]).2.Nodup := by
  refine ⟨rfl, by decide, by decide⟩

/-- Witness for C3: a registry already holding the key `"x"` assigns `x[2]`
to a new `"x"`. -/
theorem c3_collision_policy_witness :
    get_signal_name ⟨[("x", "x")]⟩ "x" = "x[2]" := by
  rw [c3_collision_policy ⟨[("x", "x")]⟩ "x" (by decide)]
  decide

/-! ## Claim C9: websocket stream protocol -/

theorem recMsgs_eq (n : Nat) : ∀ rs : List Reco,
    recMsgs n rs =
      ((rs.enumFrom n).map fun p => .data p.2.1 p.2.2 p.1, n + rs.length) := by
  intro rs
  induction rs generalizing n with
  | nil => simp [recMsgs]
  | cons r rs ih =>
    obtain ⟨t, v⟩ := r
    simp only [recMsgs, ih (n + 1), List.enumFrom_cons, List.map_cons,
      List.length_cons, Prod.mk.injEq]
    exact ⟨trivial, by omega⟩

theorem chunksMsgs_eq : ∀ (chunks : List (List ℚ × List ℚ)) (n : Nat),
    chunksMsgs n chunks =
      (((flatRecs chunks).enumFrom n).map fun p => .data p.2.1 p.2.2 p.1,
        n + (flatRecs chunks).length) := by
  intro chunks
  induction chunks with
  | nil => intro n; simp [chunksMsgs, flatRecs]
  | cons ch rest ih =>
    intro n
    obtain ⟨ts, vs⟩ := ch
    have hflat : flatRecs ((ts, vs) :: rest) = ts.zip vs ++ flatRecs rest := by
      simp [flatRecs]
    simp only [chunksMsgs, recMsgs_eq, ih, hflat, List.enumFrom_append,
      List.map_append, List.length_append, Prod.mk.injEq]
    exact ⟨trivial, by omega⟩

/-- Holds (`true`) exactly on error messages. -/
def isErrMsg : StreamMsg → Bool
  | .err _ => true
  | _ => false

/-- C9.  Stream message protocol: when the underlying read succeeds, the
socket sends one data message per record in record order, with `seq` starting
at 0 and incrementing by exactly one per record (it equals the record's
index), followed by exactly one terminator carrying `seq = n`, the number of
records sent.  On any error — an unregistered name, or a read that fails
after yielding some chunks — the data prefix is followed by exactly one
error message and the stream ends. -/
theorem c9_stream_protocol :
    (∀ chunks, websocket_stream (some (chunks, none)) =
      ((flatRecs chunks).enum.map fun p => .data p.2.1 p.2.2 p.1) ++
        [.done (flatRecs chunks).length]) ∧
    (∀ chunks e, websocket_stream (some (chunks, some e)) =
      ((flatRecs chunks).enum.map fun p => .data p.2.1 p.2.2 p.1) ++ [.err e]) ∧
    (∀ chunks e,
      (websocket_stream (some (chunks, some e))).filter isErrMsg = [.err e]) ∧
    websocket_stream none = [.err "Signal not registered"] := by
  have hsucc : ∀ chunks, websocket_stream (some (chunks, none)) =
      ((flatRecs chunks).enum.map fun p => .data p.2.1 p.2.2 p.1) ++
        [.done (flatRecs chunks).length] := by
    intro chunks
    simp only [websocket_stream, chunksMsgs_eq, Nat.zero_add]
    rfl
  have herr : ∀ chunks e, websocket_stream (some (chunks, some e)) =
      ((flatRecs chunks).enum.map fun p => .data p.2.1 p.2.2 p.1) ++ [.err e] := by
    intro chunks e
    simp only [websocket_stream, chunksMsgs_eq, Nat.zero_add]
    rfl
  refine ⟨hsucc, herr, ?_, rfl⟩
  intro chunks e
  rw [herr chunks e, List.filter_append]
  have hdata : ((flatRecs chunks).enum.map
      fun p => StreamMsg.data p.2.1 p.2.2 p.1).filter isErrMsg = [] := by
    refine List.filter_eq_nil_iff.mpr ?_
    intro m hm
    obtain ⟨p, _, rfl⟩ := List.mem_map.mp hm
    simp [isErrMsg]
  rw [hdata]
  rfl

/-! ## Claim C6: atomic finalize -/

/-- Every index entry of a built file is well-formed (whole-file version of
`entryWFb_build`, for the reader-validity part of C6). -/
theorem fileWFb_build (s : WriterState) : fileWFb (buildFinal s) = true := by
  unfold fileWFb
  rw [List.all_eq_true]
  intro e he
  have hidx : (buildFinal s).index = s.tmp.enum.map
      (fun ip => (⟨ip.2.1, ip.1, tsMin ip.2.2, tsMax ip.2.2⟩ : IndexEntry)) := rfl
  rw [hidx] at he
  obtain ⟨ip, hip, rfl⟩ := List.mem_map.mp he
  have hget : s.tmp.get? ip.1 = some ip.2 := List.mem_enum_iff_get?.mp hip
  have hc := chunkAt_build s hget
  simp only [entryWFb, hc]
  simp [mkChunk, decompLen]

/-- C6.  Atomic finalize: `stop_and_save` (modelled with `failCount` failed
`.part` attempts before the succeeding one) installs the completed final
image at `final_path` via the atomic replace, deletes the temp-chunks file,
and the installed file is a valid PLTX file (every indexed chunk readable:
`iter_chunks` finishes without error for every sid).  Moreover a failed
attempt to write `.part` never touches `final_path`: any number of failed
attempts leaves `final_path` unchanged. -/
theorem c6_atomic_finalize :
    (∀ (s : WriterState) (failCount : Nat) (fs : FsState),
      (stop_and_save_fs s failCount fs).finalFile = some (stop_and_save_file s) ∧
      (stop_and_save_fs s failCount fs).tmpFile = none ∧
      fileWFb (stop_and_save_file s) = true ∧
      ∀ sid, (iter_chunks (stop_and_save_file s) sid).2 = none) ∧
    (∀ (fs : FsState) (k : Nat), (failedAttempt^[k] fs).finalFile = fs.finalFile) := by
  constructor
  · intro s failCount fs
    refine ⟨rfl, rfl, fileWFb_build _, ?_⟩
    intro sid
    rw [show stop_and_save_file s = buildFinal (flush_all s) from rfl,
      iter_chunks_build]
  · intro fs k
    induction k with
    | zero => rfl
    | succ k ih =>
      rw [Function.iterate_succ_apply']
      exact ih

end Pltx
